import Mathlib

/-!
Shallow embedding of the lox-rs front end:
  * `src/lexeme.rs`    — the `Lexeme` token type and its `Display` rendering,
  * `src/main.rs`      — the free function `tokenize` (the scanner the binary
                         actually invokes; `main.rs` declares only `mod lexeme`),
  * `src/tokenizer.rs` — the `Tokenizer::tokenize` snapshot (differs from
                         `main.rs` in its number lookahead and keyword set),
  * `src/parser.rs`    — the recursive-descent expression parser.

Modelling conventions: Rust `f64` number values are modelled as exact
rationals `ℚ` (every scanned literal is a finite decimal, and the repo's
two-branch formatting rule is reproduced on `ℚ`); `usize` is `Nat`, with the
`current - 1` underflow of `Parser::previous` made explicit; Rust iterator
state is explicit `List Char` / cursor passing; a Rust panic (out-of-bounds
slice index, `unreachable!`, usize underflow) is the `POut.crash` outcome.
Rust's Unicode `char::is_alphanumeric` is modelled as ASCII alphanumeric
(every claim under study involves ASCII source text only).
-/

/-- MathOp from `src/lexeme.rs`: the closed arithmetic-operator enumeration. -/
inductive MathOp where
  | plus
  | minus
  | star
  | slash
deriving DecidableEq

/-- Lexeme from `src/lexeme.rs`: the token sum type, two error variants included. -/
inductive Lexeme where
  | eof
  | identifier (s : String)
  | number (original : String) (n : ℚ)
  | string (s : String)
  | operator (op : MathOp)
  | keyword (kw : String)
  | leftParen
  | rightParen
  | leftBrace
  | rightBrace
  | comma
  | dot
  | semicolon
  | equal
  | equalEqual
  | bang
  | bangEqual
  | less
  | lessEqual
  | greater
  | greaterEqual
  | unexpectedCharError (line : Nat) (c : Char)
  | unterminatedStringError (line : Nat)
deriving DecidableEq

/-- Numeric value of a run of ASCII digits (most significant first). -/
def digitsVal (l : List Char) : Nat :=
  l.foldl (fun n c => 10 * n + (c.toNat - 48)) 0

/-- Model of `number.parse::<f64>().unwrap()` on the strings the scanners build
(digits optionally followed by `.` and digits): the exact rational value. -/
def parseDec (l : List Char) : ℚ :=
  let ip := l.takeWhile (fun c => c ≠ '.')
  match l.dropWhile (fun c => c ≠ '.') with
  | _ :: fr => (digitsVal ip : ℚ) + (digitsVal fr : ℚ) / (10 : ℚ) ^ fr.length
  | [] => (digitsVal ip : ℚ)

/-- Smallest exponent `k` (searched up to the denominator) with `den ∣ 10 ^ k`:
the number of decimal digits needed for an exact finite expansion. -/
def decExp (q : ℚ) : Nat :=
  (((List.range (q.den + 1)).find? (fun k => 10 ^ k % q.den == 0)).getD 0)

/-- Decimal rendering of a non-integral value, used for the `{}` branch of the
Rust number formatting (`f64::to_string`, modelled as the exact shortest
decimal expansion of the rational value). -/
def fracStr (q : ℚ) : String :=
  let k := decExp q
  let m := q.num * (10 : ℤ) ^ k / (q.den : ℤ)
  let fdigits := toString (m % (10 : ℤ) ^ k).toNat
  toString (m / (10 : ℤ) ^ k) ++ "." ++
    String.mk (List.replicate (k - fdigits.length) '0') ++ fdigits

/-- Two-branch number formatting shared by `Lexeme::fmt` and
`Parser::parse_literal`: `if n.fract() == 0.0 { format!("{:.1}", n) } else
{ n.to_string() }`. On `ℚ`, `fract == 0.0` is `den = 1`. -/
def renderNumberValue (q : ℚ) : String :=
  if q.den = 1 then toString q.num ++ ".0" else fracStr q

/-- Display for MathOp from `src/lexeme.rs`. -/
def MathOp.render : MathOp → String
  | .plus => "PLUS +"
  | .minus => "MINUS -"
  | .star => "STAR *"
  | .slash => "SLASH /"

/-- Model of `str::to_uppercase` restricted to ASCII (keywords are ASCII). -/
def asciiUpper (s : String) : String :=
  String.mk (s.toList.map Char.toUpper)

/-- Display for Lexeme from `src/lexeme.rs` (`impl fmt::Display for Lexeme`). -/
def Lexeme.render : Lexeme → String
  | .eof => "EOF  null"
  | .identifier s => "IDENTIFIER " ++ s ++ " null"
  | .number original n => "NUMBER " ++ original ++ " " ++ renderNumberValue n
  | .string s => "STRING \"" ++ s ++ "\" " ++ s
  | .operator op => op.render ++ " null"
  | .keyword kw => asciiUpper kw ++ " " ++ kw ++ " null"
  | .leftParen => "LEFT_PAREN ( null"
  | .rightParen => "RIGHT_PAREN ) null"
  | .leftBrace => "LEFT_BRACE \x7b null"
  | .rightBrace => "RIGHT_BRACE \x7d null"
  | .comma => "COMMA , null"
  | .dot => "DOT . null"
  | .semicolon => "SEMICOLON ; null"
  | .equal => "EQUAL = null"
  | .equalEqual => "EQUAL_EQUAL == null"
  | .bang => "BANG ! null"
  | .bangEqual => "BANG_EQUAL != null"
  | .less => "LESS < null"
  | .lessEqual => "LESS_EQUAL <= null"
  | .greater => "GREATER > null"
  | .greaterEqual => "GREATER_EQUAL >= null"
  | .unexpectedCharError line c =>
      "[line " ++ toString line ++ "] Error: Unexpected character: " ++ String.mk [c]
  | .unterminatedStringError line =>
      "[line " ++ toString line ++ "] Error: Unterminated string."

/-- Reserved words of the `tokenize` in `src/main.rs` (lines 177-180):
`print` is present, `let` is not. -/
def mainKeywords : List String :=
  ["and", "class", "else", "false", "for", "fun", "if", "nil", "or", "print",
   "return", "super", "this", "true", "var", "while"]

/-- Reserved words of `Tokenizer::handle_identifier` in `src/tokenizer.rs`
(lines 154-156): this snapshot lists both `let` and `print`. -/
def tokenizerKeywords : List String :=
  ["and", "class", "else", "false", "for", "fun", "if", "let", "nil", "or",
   "return", "super", "this", "true", "var", "while", "print"]

/-- Identifier continuation characters: `d.is_alphanumeric() || d == '_'`
(ASCII restriction of Rust's Unicode `is_alphanumeric`). -/
def isIdentChar (c : Char) : Bool :=
  c.isAlphanum || c = '_'

/-- Identifier start characters, the match arm `'a'..='z' | 'A'..='Z' | '_'`. -/
def isStartChar (c : Char) : Bool :=
  c.isAlpha || c = '_'

/-- Number scan loop of the `tokenize` in `src/main.rs` (lines 140-157).
Returns the consumed characters and the remaining input. In the decimal-point
branch the source tests `chars.peek()` — which still yields the `.` itself,
not the character after it — so the test `d.isDigit` below is the faithful
transliteration of `chars.peek().map_or(false, |&next| next.is_ascii_digit())`
in the branch where `d = '.'`. -/
def mainTakeNumber : List Char → Bool → List Char × List Char
  | [], _ => ([], [])
  | d :: ds, hasDecimal =>
    if d.isDigit then
      let r := mainTakeNumber ds hasDecimal
      (d :: r.1, r.2)
    else if d = '.' && !hasDecimal then
      if d.isDigit then
        let r := mainTakeNumber ds true
        (d :: r.1, r.2)
      else ([], d :: ds)
    else ([], d :: ds)

/-- Number scan loop of `Tokenizer::handle_number` in `src/tokenizer.rs`
(lines 107-132). Here the decimal-point lookahead is `chars.clone().nth(1)`,
the character after the `.`. -/
def tokenizerTakeNumber : List Char → Bool → List Char × List Char
  | [], _ => ([], [])
  | d :: ds, hasDecimal =>
    if d.isDigit then
      let r := tokenizerTakeNumber ds hasDecimal
      (d :: r.1, r.2)
    else if d = '.' && !hasDecimal then
      match ds with
      | e :: _ =>
        if e.isDigit then
          let r := tokenizerTakeNumber ds true
          (d :: r.1, r.2)
        else ([], d :: ds)
      | [] => ([], d :: ds)
    else ([], d :: ds)

/-- Result of the string-literal loop (`handle_string`, identical in
`src/main.rs` lines 188-214 and `src/tokenizer.rs` lines 165-190): the
accumulated contents, whether a closing quote was found, the remaining
input, and the updated line counter. -/
structure StrScan where
  content : List Char
  terminated : Bool
  rest : List Char
  line : Nat
deriving DecidableEq

/-- String-literal loop: consume until a closing `"` or end of input, counting
newlines into the line counter. -/
def takeStr : List Char → Nat → StrScan
  | [], line => ⟨[], false, [], line⟩
  | d :: ds, line =>
    if d = '"' then ⟨[], true, ds, line⟩
    else
      let r := takeStr ds (if d = '\n' then line + 1 else line)
      ⟨d :: r.content, r.terminated, r.rest, r.line⟩

/-- Outcome of one iteration of a scanner's main dispatch loop: the tokens it
pushed, whether it set the error flag, the updated line counter, and the
remaining input. -/
structure ScanStep where
  toks : List Lexeme
  err : Bool
  line : Nat
  rest : List Char
deriving DecidableEq

/-- One iteration of the main `while let Some(&c) = chars.peek()` loop of the
`tokenize` in `src/main.rs` (lines 66-249), dispatching on the peeked
character `c` with lookahead into `cs`. -/
def scanStep (c : Char) (cs : List Char) (line : Nat) : ScanStep :=
  if c = ' ' ∨ c = '\t' ∨ c = '\r' then ⟨[], false, line, cs⟩
  else if c = '\n' then ⟨[], false, line + 1, cs⟩
  else if c = '(' then ⟨[.leftParen], false, line, cs⟩
  else if c = ')' then ⟨[.rightParen], false, line, cs⟩
  else if c = '{' then ⟨[.leftBrace], false, line, cs⟩
  else if c = '}' then ⟨[.rightBrace], false, line, cs⟩
  else if c = ',' then ⟨[.comma], false, line, cs⟩
  else if c = '.' then ⟨[.dot], false, line, cs⟩
  else if c = ';' then ⟨[.semicolon], false, line, cs⟩
  else if c = '=' then
    if cs.head? = some '=' then ⟨[.equalEqual], false, line, cs.tail⟩
    else ⟨[.equal], false, line, cs⟩
  else if c = '!' then
    if cs.head? = some '=' then ⟨[.bangEqual], false, line, cs.tail⟩
    else ⟨[.bang], false, line, cs⟩
  else if c = '<' then
    if cs.head? = some '=' then ⟨[.lessEqual], false, line, cs.tail⟩
    else ⟨[.less], false, line, cs⟩
  else if c = '>' then
    if cs.head? = some '=' then ⟨[.greaterEqual], false, line, cs.tail⟩
    else ⟨[.greater], false, line, cs⟩
  else if c.isDigit then
    if (mainTakeNumber (c :: cs) false).2.head? = some '.' then
      ⟨[.number (String.mk (mainTakeNumber (c :: cs) false).1)
          (parseDec (mainTakeNumber (c :: cs) false).1), .dot],
        false, line, (mainTakeNumber (c :: cs) false).2.tail⟩
    else
      ⟨[.number (String.mk (mainTakeNumber (c :: cs) false).1)
          (parseDec (mainTakeNumber (c :: cs) false).1)],
        false, line, (mainTakeNumber (c :: cs) false).2⟩
  else if isStartChar c then
    ⟨[if String.mk ((c :: cs).takeWhile isIdentChar) ∈ mainKeywords then
        Lexeme.keyword (String.mk ((c :: cs).takeWhile isIdentChar))
      else
        Lexeme.identifier (String.mk ((c :: cs).takeWhile isIdentChar))],
      false, line, (c :: cs).dropWhile isIdentChar⟩
  else if c = '"' then
    if (takeStr cs line).terminated then
      ⟨[.string (String.mk (takeStr cs line).content)], false,
        (takeStr cs line).line, (takeStr cs line).rest⟩
    else
      ⟨[.unterminatedStringError line], true,
        (takeStr cs line).line, (takeStr cs line).rest⟩
  else if c = '+' then ⟨[.operator .plus], false, line, cs⟩
  else if c = '-' then ⟨[.operator .minus], false, line, cs⟩
  else if c = '*' then ⟨[.operator .star], false, line, cs⟩
  else if c = '/' then
    if cs.head? = some '/' then ⟨[], false, line, cs.tail.dropWhile (fun d => d ≠ '\n')⟩
    else ⟨[.operator .slash], false, line, cs⟩
  else ⟨[.unexpectedCharError line c], true, line, cs⟩

/-- Accumulated scanner result: tokens pushed, error flag, final line counter. -/
structure ScanRes where
  toks : List Lexeme
  err : Bool
  line : Nat
deriving DecidableEq

/-- Length of the input left after one dispatch iteration never exceeds the
length of the lookahead tail: each iteration consumes the peeked character. -/
theorem takeStr_rest_le (l : List Char) : ∀ line, (takeStr l line).rest.length ≤ l.length := by
  induction l with
  | nil => intro line; simp [takeStr]
  | cons d ds ih =>
    intro line
    simp only [takeStr]
    split
    · simp
    · simpa using Nat.le_succ_of_le (ih _)

theorem length_dropWhile_le (p : α → Bool) (l : List α) :
    (l.dropWhile p).length ≤ l.length := by
  induction l with
  | nil => simp [List.dropWhile]
  | cons a l ih =>
    simp only [List.dropWhile]
    split
    · exact Nat.le_succ_of_le ih
    · simp

/-- Number-lookahead bug in `src/main.rs`: because the decimal-point branch
tests `chars.peek()` — still the `.` itself — the loop reduces to a plain
maximal digit run and never consumes a decimal point. -/
theorem mainTakeNumber_eq (l : List Char) :
    ∀ b, mainTakeNumber l b = (l.takeWhile Char.isDigit, l.dropWhile Char.isDigit) := by
  induction l with
  | nil => intro b; rfl
  | cons d ds ih =>
    intro b
    by_cases hd : d.isDigit
    · simp [mainTakeNumber, hd, List.takeWhile, List.dropWhile, ih]
    · by_cases hdot : d = '.' && !b
      · have hd' : d = '.' := by
          have h1 := hdot
          simp only [Bool.and_eq_true, decide_eq_true_eq] at h1
          exact h1.1
        simp [mainTakeNumber, hd, hdot, hd', List.takeWhile, List.dropWhile]
      · simp [mainTakeNumber, hd, hdot, List.takeWhile, List.dropWhile]

theorem tokenizerTakeNumber_rest_le (l : List Char) :
    ∀ b, (tokenizerTakeNumber l b).2.length ≤ l.length := by
  induction l with
  | nil => intro b; simp [tokenizerTakeNumber]
  | cons d ds ih =>
    intro b
    simp only [tokenizerTakeNumber]
    split
    · simpa using Nat.le_succ_of_le (ih _)
    · split
      · split
        · split
          · simpa using Nat.le_succ_of_le (ih _)
          · simp
        · simp
      · simp

theorem length_tail_le (l : List α) : l.tail.length ≤ l.length := by
  cases l <;> simp

theorem isStartChar_isIdentChar {c : Char} (h : isStartChar c = true) :
    isIdentChar c = true := by
  simp only [isStartChar, isIdentChar, Char.isAlphanum, Bool.or_eq_true,
    decide_eq_true_eq] at h ⊢
  tauto

theorem isStartChar_not_isDigit {c : Char} (h : isStartChar c = true) :
    ¬ c.isDigit = true := by
  simp only [isStartChar, Bool.or_eq_true, decide_eq_true_eq] at h
  rcases h with h | rfl
  · simp only [Char.isAlpha, Char.isUpper, Char.isLower, Bool.or_eq_true,
      Bool.and_eq_true, decide_eq_true_eq, ge_iff_le, UInt32.le_def, BitVec.le_def] at h
    simp only [Char.isDigit, Bool.and_eq_true, decide_eq_true_eq, ge_iff_le, not_and,
      UInt32.le_def, BitVec.le_def, not_le]
    norm_num at h ⊢
    omega
  · decide

/-- Unfolding of `scanStep` in the digit branch. -/
theorem scanStep_digit {c : Char} (cs : List Char) (line : Nat) (h : c.isDigit = true) :
    scanStep c cs line =
      if (mainTakeNumber (c :: cs) false).2.head? = some '.' then
        ⟨[.number (String.mk (mainTakeNumber (c :: cs) false).1)
            (parseDec (mainTakeNumber (c :: cs) false).1), .dot],
          false, line, (mainTakeNumber (c :: cs) false).2.tail⟩
      else
        ⟨[.number (String.mk (mainTakeNumber (c :: cs) false).1)
            (parseDec (mainTakeNumber (c :: cs) false).1)],
          false, line, (mainTakeNumber (c :: cs) false).2⟩ := by
  unfold scanStep
  rw [if_neg (by rintro (rfl | rfl | rfl) <;> exact absurd h (by decide)),
    if_neg (by rintro rfl; exact absurd h (by decide)),
    if_neg (by rintro rfl; exact absurd h (by decide)),
    if_neg (by rintro rfl; exact absurd h (by decide)),
    if_neg (by rintro rfl; exact absurd h (by decide)),
    if_neg (by rintro rfl; exact absurd h (by decide)),
    if_neg (by rintro rfl; exact absurd h (by decide)),
    if_neg (by rintro rfl; exact absurd h (by decide)),
    if_neg (by rintro rfl; exact absurd h (by decide)),
    if_neg (by rintro rfl; exact absurd h (by decide)),
    if_neg (by rintro rfl; exact absurd h (by decide)),
    if_neg (by rintro rfl; exact absurd h (by decide)),
    if_neg (by rintro rfl; exact absurd h (by decide)),
    if_pos h]

/-- Unfolding of `scanStep` in the identifier branch. -/
theorem scanStep_start {c : Char} (cs : List Char) (line : Nat) (h : isStartChar c = true) :
    scanStep c cs line =
      ⟨[if String.mk ((c :: cs).takeWhile isIdentChar) ∈ mainKeywords then
          Lexeme.keyword (String.mk ((c :: cs).takeWhile isIdentChar))
        else
          Lexeme.identifier (String.mk ((c :: cs).takeWhile isIdentChar))],
        false, line, (c :: cs).dropWhile isIdentChar⟩ := by
  unfold scanStep
  rw [if_neg (by rintro (rfl | rfl | rfl) <;> exact absurd h (by decide)),
    if_neg (by rintro rfl; exact absurd h (by decide)),
    if_neg (by rintro rfl; exact absurd h (by decide)),
    if_neg (by rintro rfl; exact absurd h (by decide)),
    if_neg (by rintro rfl; exact absurd h (by decide)),
    if_neg (by rintro rfl; exact absurd h (by decide)),
    if_neg (by rintro rfl; exact absurd h (by decide)),
    if_neg (by rintro rfl; exact absurd h (by decide)),
    if_neg (by rintro rfl; exact absurd h (by decide)),
    if_neg (by rintro rfl; exact absurd h (by decide)),
    if_neg (by rintro rfl; exact absurd h (by decide)),
    if_neg (by rintro rfl; exact absurd h (by decide)),
    if_neg (by rintro rfl; exact absurd h (by decide)),
    if_neg (isStartChar_not_isDigit h),
    if_pos h]

/-- Characters handled by some rule of the main dispatch loop; everything else
hits the catch-all arm that emits an unexpected-character error. -/
def isHandled (c : Char) : Bool :=
  c = ' ' || c = '\t' || c = '\r' || c = '\n' || c = '(' || c = ')' || c = '{' || c = '}' ||
  c = ',' || c = '.' || c = ';' || c = '=' || c = '!' || c = '<' || c = '>' ||
  c.isDigit || isStartChar c || c = '"' || c = '+' || c = '-' || c = '*' || c = '/'

/-- Unfolding of `scanStep` in the catch-all (unexpected character) arm. -/
theorem scanStep_unhandled {c : Char} (cs : List Char) (line : Nat)
    (h : isHandled c = false) :
    scanStep c cs line = ⟨[.unexpectedCharError line c], true, line, cs⟩ := by
  simp only [isHandled, Bool.or_eq_false_iff, decide_eq_false_iff_not] at h
  obtain ⟨⟨⟨⟨⟨⟨⟨⟨⟨⟨⟨⟨⟨⟨⟨⟨⟨⟨⟨⟨⟨hsp, hta⟩, hcr⟩, hnl⟩, hlp⟩, hrp⟩, hlb⟩, hrb⟩, hco⟩,
    hdo⟩, hse⟩, heq⟩, hba⟩, hle⟩, hgr⟩, hdig⟩, hstart⟩, hq⟩, hplus⟩, hminus⟩, hstar⟩,
    hslash⟩ := h
  unfold scanStep
  rw [if_neg (by rintro (rfl | rfl | rfl) <;> simp_all),
    if_neg hnl, if_neg hlp, if_neg hrp, if_neg hlb, if_neg hrb, if_neg hco, if_neg hdo,
    if_neg hse, if_neg heq, if_neg hba, if_neg hle, if_neg hgr,
    if_neg (by simp [hdig]), if_neg (by simp [hstart]), if_neg hq, if_neg hplus,
    if_neg hminus, if_neg hstar, if_neg hslash]

theorem scanStep_rest_le (c : Char) (cs : List Char) (line : Nat) :
    (scanStep c cs line).rest.length ≤ cs.length := by
  by_cases h1 : c = ' ' ∨ c = '\t' ∨ c = '\r'
  · rcases h1 with rfl | rfl | rfl <;> exact Nat.le_refl _
  by_cases h2 : c = '\n'
  · subst h2; exact Nat.le_refl _
  by_cases h3 : c = '('
  · subst h3; exact Nat.le_refl _
  by_cases h4 : c = ')'
  · subst h4; exact Nat.le_refl _
  by_cases h5 : c = '{'
  · subst h5; exact Nat.le_refl _
  by_cases h6 : c = '}'
  · subst h6; exact Nat.le_refl _
  by_cases h7 : c = ','
  · subst h7; exact Nat.le_refl _
  by_cases h8 : c = '.'
  · subst h8; exact Nat.le_refl _
  by_cases h9 : c = ';'
  · subst h9; exact Nat.le_refl _
  by_cases h10 : c = '='
  · subst h10
    by_cases hh : cs.head? = some '='
    · simpa [scanStep, hh] using length_tail_le cs
    · simp [scanStep, hh]
  by_cases h11 : c = '!'
  · subst h11
    by_cases hh : cs.head? = some '='
    · simpa [scanStep, hh] using length_tail_le cs
    · simp [scanStep, hh]
  by_cases h12 : c = '<'
  · subst h12
    by_cases hh : cs.head? = some '='
    · simpa [scanStep, hh] using length_tail_le cs
    · simp [scanStep, hh]
  by_cases h13 : c = '>'
  · subst h13
    by_cases hh : cs.head? = some '='
    · simpa [scanStep, hh] using length_tail_le cs
    · simp [scanStep, hh]
  by_cases h14 : c.isDigit = true
  · have hrest : ((mainTakeNumber (c :: cs) false).2).length ≤ cs.length := by
      rw [mainTakeNumber_eq]
      simpa [List.dropWhile_cons, h14] using length_dropWhile_le Char.isDigit cs
    rw [scanStep_digit cs line h14]
    by_cases hh : (mainTakeNumber (c :: cs) false).2.head? = some '.'
    · rw [if_pos hh]
      exact le_trans (length_tail_le _) hrest
    · rw [if_neg hh]
      exact hrest
  by_cases h15 : isStartChar c = true
  · rw [scanStep_start cs line h15]
    simpa [List.dropWhile_cons, isStartChar_isIdentChar h15] using
      length_dropWhile_le isIdentChar cs
  by_cases h16 : c = '"'
  · subst h16
    by_cases hh : (takeStr cs line).terminated = true
    · simpa [scanStep, hh] using takeStr_rest_le cs line
    · simpa [scanStep, hh] using takeStr_rest_le cs line
  by_cases h17 : c = '+'
  · subst h17; exact Nat.le_refl _
  by_cases h18 : c = '-'
  · subst h18; exact Nat.le_refl _
  by_cases h19 : c = '*'
  · subst h19; exact Nat.le_refl _
  by_cases h20 : c = '/'
  · subst h20
    by_cases hh : cs.head? = some '/'
    · simpa [scanStep, hh, show isStartChar '/' = false from rfl] using
        le_trans (length_dropWhile_le (fun d => d ≠ '\n') cs.tail) (length_tail_le cs)
    · simp [scanStep, hh, show isStartChar '/' = false from rfl]
  · have hun : isHandled c = false := by
      by_contra hbc
      rw [Bool.not_eq_false] at hbc
      simp only [isHandled, Bool.or_eq_true, decide_eq_true_eq] at hbc
      tauto
    rw [scanStep_unhandled cs line hun]

/-- Main scanner loop of the `tokenize` in `src/main.rs`: iterate `scanStep`
until the input is exhausted, accumulating tokens, the error flag, and the
line counter. -/
def scanBody (l : List Char) (line : Nat) : ScanRes :=
  match l with
  | [] => ⟨[], false, line⟩
  | c :: cs =>
    let s := scanStep c cs line
    let r := scanBody s.rest s.line
    ⟨s.toks ++ r.toks, s.err || r.err, r.line⟩
termination_by l.length
decreasing_by
  simp only [List.length_cons]
  exact Nat.lt_succ_of_le (scanStep_rest_le c cs line)

theorem scanBody_nil (line : Nat) : scanBody [] line = ⟨[], false, line⟩ := by
  rw [scanBody]

theorem scanBody_cons (c : Char) (cs : List Char) (line : Nat) :
    scanBody (c :: cs) line =
      ⟨(scanStep c cs line).toks ++ (scanBody (scanStep c cs line).rest (scanStep c cs line).line).toks,
        (scanStep c cs line).err || (scanBody (scanStep c cs line).rest (scanStep c cs line).line).err,
        (scanBody (scanStep c cs line).rest (scanStep c cs line).line).line⟩ := by
  rw [scanBody]

/-- Scanner of `src/main.rs` (`fn tokenize`), char-list level: all tokens with
the end-of-input marker appended, the error flag, and the final line counter. -/
def mainScan (l : List Char) : ScanRes :=
  let r := scanBody l 1
  ⟨r.toks ++ [Lexeme.eof], r.err, r.line⟩

/-- The `tokenize` of `src/main.rs` as called by `main`: `Ok(tokens)` on a
clean scan, `Err(tokens)` — same token vector — when the error flag was set. -/
def tokenize (input : String) : Except (List Lexeme) (List Lexeme) :=
  let r := mainScan input.toList
  if r.err then .error r.toks else .ok r.toks

/-- One iteration of the main loop of `Tokenizer::tokenize` in
`src/tokenizer.rs` (lines 21-64). It differs from `scanStep` in exactly two
places: the number branch uses the `nth(1)` decimal lookahead
(`tokenizerTakeNumber`) and the keyword set includes `let`
(`tokenizerKeywords`). -/
def tokenizerScanStep (c : Char) (cs : List Char) (line : Nat) : ScanStep :=
  if c = ' ' ∨ c = '\t' ∨ c = '\r' then ⟨[], false, line, cs⟩
  else if c = '\n' then ⟨[], false, line + 1, cs⟩
  else if c = '(' then ⟨[.leftParen], false, line, cs⟩
  else if c = ')' then ⟨[.rightParen], false, line, cs⟩
  else if c = '{' then ⟨[.leftBrace], false, line, cs⟩
  else if c = '}' then ⟨[.rightBrace], false, line, cs⟩
  else if c = ',' then ⟨[.comma], false, line, cs⟩
  else if c = '.' then ⟨[.dot], false, line, cs⟩
  else if c = ';' then ⟨[.semicolon], false, line, cs⟩
  else if c = '=' then
    if cs.head? = some '=' then ⟨[.equalEqual], false, line, cs.tail⟩
    else ⟨[.equal], false, line, cs⟩
  else if c = '!' then
    if cs.head? = some '=' then ⟨[.bangEqual], false, line, cs.tail⟩
    else ⟨[.bang], false, line, cs⟩
  else if c = '<' then
    if cs.head? = some '=' then ⟨[.lessEqual], false, line, cs.tail⟩
    else ⟨[.less], false, line, cs⟩
  else if c = '>' then
    if cs.head? = some '=' then ⟨[.greaterEqual], false, line, cs.tail⟩
    else ⟨[.greater], false, line, cs⟩
  else if c.isDigit then
    if (tokenizerTakeNumber (c :: cs) false).2.head? = some '.' then
      ⟨[.number (String.mk (tokenizerTakeNumber (c :: cs) false).1)
          (parseDec (tokenizerTakeNumber (c :: cs) false).1), .dot],
        false, line, (tokenizerTakeNumber (c :: cs) false).2.tail⟩
    else
      ⟨[.number (String.mk (tokenizerTakeNumber (c :: cs) false).1)
          (parseDec (tokenizerTakeNumber (c :: cs) false).1)],
        false, line, (tokenizerTakeNumber (c :: cs) false).2⟩
  else if isStartChar c then
    ⟨[if String.mk ((c :: cs).takeWhile isIdentChar) ∈ tokenizerKeywords then
        Lexeme.keyword (String.mk ((c :: cs).takeWhile isIdentChar))
      else
        Lexeme.identifier (String.mk ((c :: cs).takeWhile isIdentChar))],
      false, line, (c :: cs).dropWhile isIdentChar⟩
  else if c = '"' then
    if (takeStr cs line).terminated then
      ⟨[.string (String.mk (takeStr cs line).content)], false,
        (takeStr cs line).line, (takeStr cs line).rest⟩
    else
      ⟨[.unterminatedStringError line], true,
        (takeStr cs line).line, (takeStr cs line).rest⟩
  else if c = '+' then ⟨[.operator .plus], false, line, cs⟩
  else if c = '-' then ⟨[.operator .minus], false, line, cs⟩
  else if c = '*' then ⟨[.operator .star], false, line, cs⟩
  else if c = '/' then
    if cs.head? = some '/' then ⟨[], false, line, cs.tail.dropWhile (fun d => d ≠ '\n')⟩
    else ⟨[.operator .slash], false, line, cs⟩
  else ⟨[.unexpectedCharError line c], true, line, cs⟩

theorem tokenizerScanStep_rest_le (c : Char) (cs : List Char) (line : Nat) :
    (tokenizerScanStep c cs line).rest.length ≤ cs.length := by
  by_cases h1 : c = ' ' ∨ c = '\t' ∨ c = '\r'
  · rcases h1 with rfl | rfl | rfl <;> exact Nat.le_refl _
  by_cases h2 : c = '\n'
  · subst h2; exact Nat.le_refl _
  by_cases h3 : c = '('
  · subst h3; exact Nat.le_refl _
  by_cases h4 : c = ')'
  · subst h4; exact Nat.le_refl _
  by_cases h5 : c = '{'
  · subst h5; exact Nat.le_refl _
  by_cases h6 : c = '}'
  · subst h6; exact Nat.le_refl _
  by_cases h7 : c = ','
  · subst h7; exact Nat.le_refl _
  by_cases h8 : c = '.'
  · subst h8; exact Nat.le_refl _
  by_cases h9 : c = ';'
  · subst h9; exact Nat.le_refl _
  by_cases h10 : c = '='
  · subst h10
    by_cases hh : cs.head? = some '='
    · simpa [tokenizerScanStep, hh] using length_tail_le cs
    · simp [tokenizerScanStep, hh]
  by_cases h11 : c = '!'
  · subst h11
    by_cases hh : cs.head? = some '='
    · simpa [tokenizerScanStep, hh] using length_tail_le cs
    · simp [tokenizerScanStep, hh]
  by_cases h12 : c = '<'
  · subst h12
    by_cases hh : cs.head? = some '='
    · simpa [tokenizerScanStep, hh] using length_tail_le cs
    · simp [tokenizerScanStep, hh]
  by_cases h13 : c = '>'
  · subst h13
    by_cases hh : cs.head? = some '='
    · simpa [tokenizerScanStep, hh] using length_tail_le cs
    · simp [tokenizerScanStep, hh]
  by_cases h14 : c.isDigit = true
  · have hrest : ((tokenizerTakeNumber (c :: cs) false).2).length ≤ cs.length := by
      have h1 := tokenizerTakeNumber_rest_le cs false
      simp only [tokenizerTakeNumber, h14, if_pos]
      exact h1
    have heq : tokenizerScanStep c cs line =
        if (tokenizerTakeNumber (c :: cs) false).2.head? = some '.' then
          ⟨[.number (String.mk (tokenizerTakeNumber (c :: cs) false).1)
              (parseDec (tokenizerTakeNumber (c :: cs) false).1), .dot],
            false, line, (tokenizerTakeNumber (c :: cs) false).2.tail⟩
        else
          ⟨[.number (String.mk (tokenizerTakeNumber (c :: cs) false).1)
              (parseDec (tokenizerTakeNumber (c :: cs) false).1)],
            false, line, (tokenizerTakeNumber (c :: cs) false).2⟩ := by
      unfold tokenizerScanStep
      rw [if_neg (by rintro (rfl | rfl | rfl) <;> exact absurd h14 (by decide)),
        if_neg (by rintro rfl; exact absurd h14 (by decide)),
        if_neg (by rintro rfl; exact absurd h14 (by decide)),
        if_neg (by rintro rfl; exact absurd h14 (by decide)),
        if_neg (by rintro rfl; exact absurd h14 (by decide)),
        if_neg (by rintro rfl; exact absurd h14 (by decide)),
        if_neg (by rintro rfl; exact absurd h14 (by decide)),
        if_neg (by rintro rfl; exact absurd h14 (by decide)),
        if_neg (by rintro rfl; exact absurd h14 (by decide)),
        if_neg (by rintro rfl; exact absurd h14 (by decide)),
        if_neg (by rintro rfl; exact absurd h14 (by decide)),
        if_neg (by rintro rfl; exact absurd h14 (by decide)),
        if_neg (by rintro rfl; exact absurd h14 (by decide)),
        if_pos h14]
    rw [heq]
    by_cases hh : (tokenizerTakeNumber (c :: cs) false).2.head? = some '.'
    · rw [if_pos hh]
      exact le_trans (length_tail_le _) hrest
    · rw [if_neg hh]
      exact hrest
  by_cases h15 : isStartChar c = true
  · have heq : tokenizerScanStep c cs line =
        ⟨[if String.mk ((c :: cs).takeWhile isIdentChar) ∈ tokenizerKeywords then
            Lexeme.keyword (String.mk ((c :: cs).takeWhile isIdentChar))
          else
            Lexeme.identifier (String.mk ((c :: cs).takeWhile isIdentChar))],
          false, line, (c :: cs).dropWhile isIdentChar⟩ := by
      unfold tokenizerScanStep
      rw [if_neg (by rintro (rfl | rfl | rfl) <;> exact absurd h15 (by decide)),
        if_neg (by rintro rfl; exact absurd h15 (by decide)),
        if_neg (by rintro rfl; exact absurd h15 (by decide)),
        if_neg (by rintro rfl; exact absurd h15 (by decide)),
        if_neg (by rintro rfl; exact absurd h15 (by decide)),
        if_neg (by rintro rfl; exact absurd h15 (by decide)),
        if_neg (by rintro rfl; exact absurd h15 (by decide)),
        if_neg (by rintro rfl; exact absurd h15 (by decide)),
        if_neg (by rintro rfl; exact absurd h15 (by decide)),
        if_neg (by rintro rfl; exact absurd h15 (by decide)),
        if_neg (by rintro rfl; exact absurd h15 (by decide)),
        if_neg (by rintro rfl; exact absurd h15 (by decide)),
        if_neg (by rintro rfl; exact absurd h15 (by decide)),
        if_neg (isStartChar_not_isDigit h15),
        if_pos h15]
    rw [heq]
    simpa [List.dropWhile_cons, isStartChar_isIdentChar h15] using
      length_dropWhile_le isIdentChar cs
  by_cases h16 : c = '"'
  · subst h16
    by_cases hh : (takeStr cs line).terminated = true
    · simpa [tokenizerScanStep, hh] using takeStr_rest_le cs line
    · simpa [tokenizerScanStep, hh] using takeStr_rest_le cs line
  by_cases h17 : c = '+'
  · subst h17; exact Nat.le_refl _
  by_cases h18 : c = '-'
  · subst h18; exact Nat.le_refl _
  by_cases h19 : c = '*'
  · subst h19; exact Nat.le_refl _
  by_cases h20 : c = '/'
  · subst h20
    by_cases hh : cs.head? = some '/'
    · simpa [tokenizerScanStep, hh, show isStartChar '/' = false from rfl] using
        le_trans (length_dropWhile_le (fun d => d ≠ '\n') cs.tail) (length_tail_le cs)
    · simp [tokenizerScanStep, hh, show isStartChar '/' = false from rfl]
  · have hun : isHandled c = false := by
      by_contra hbc
      rw [Bool.not_eq_false] at hbc
      simp only [isHandled, Bool.or_eq_true, decide_eq_true_eq] at hbc
      tauto
    have heq : tokenizerScanStep c cs line = ⟨[.unexpectedCharError line c], true, line, cs⟩ := by
      simp only [isHandled, Bool.or_eq_false_iff, decide_eq_false_iff_not] at hun
      obtain ⟨⟨⟨⟨⟨⟨⟨⟨⟨⟨⟨⟨⟨⟨⟨⟨⟨⟨⟨⟨⟨hsp, hta⟩, hcr⟩, hnl⟩, hlp⟩, hrp⟩, hlb⟩, hrb⟩, hco⟩,
        hdo⟩, hse⟩, heq2⟩, hba⟩, hle⟩, hgr⟩, hdig⟩, hstart⟩, hq⟩, hplus⟩, hminus⟩, hstar⟩,
        hslash⟩ := hun
      unfold tokenizerScanStep
      rw [if_neg (by rintro (rfl | rfl | rfl) <;> simp_all),
        if_neg hnl, if_neg hlp, if_neg hrp, if_neg hlb, if_neg hrb, if_neg hco, if_neg hdo,
        if_neg hse, if_neg heq2, if_neg hba, if_neg hle, if_neg hgr,
        if_neg (by simp [hdig]), if_neg (by simp [hstart]), if_neg hq, if_neg hplus,
        if_neg hminus, if_neg hstar, if_neg hslash]
    rw [heq]

/-- Main scanner loop of `Tokenizer::tokenize` in `src/tokenizer.rs`. -/
def tokenizerScanBody (l : List Char) (line : Nat) : ScanRes :=
  match l with
  | [] => ⟨[], false, line⟩
  | c :: cs =>
    let s := tokenizerScanStep c cs line
    let r := tokenizerScanBody s.rest s.line
    ⟨s.toks ++ r.toks, s.err || r.err, r.line⟩
termination_by l.length
decreasing_by
  simp only [List.length_cons]
  exact Nat.lt_succ_of_le (tokenizerScanStep_rest_le c cs line)

/-- Scanner of `src/tokenizer.rs` (`Tokenizer::tokenize`), char-list level. -/
def tokenizerScan (l : List Char) : ScanRes :=
  let r := tokenizerScanBody l 1
  ⟨r.toks ++ [Lexeme.eof], r.err, r.line⟩

/-- ParserError from `src/parser.rs` (lines 4-16). -/
inductive ParserError where
  | unexpectedToken (t : Lexeme)
  | unmatchedParentheses
  | expectedToken (t : Lexeme)
  | emptyGrouping
  | invalidUnaryOperator (t : Lexeme)
deriving DecidableEq

/-- Outcome of a parser routine: `crash` models a Rust panic (out-of-bounds
slice index in `peek`/`previous`, usize underflow in `current - 1`, or
`unreachable!`); `fuelOut` is the artefact of the fuel-indexed embedding of
the recursion and never occurs for the fuel budget `parse` passes; `res`
carries the Rust `Result`. -/
inductive POut (α : Type) where
  | crash
  | fuelOut
  | res (r : Except ParserError α)

/-- Parser::peek — `&self.tokens[self.current]`, a panicking index. -/
def peek (tokens : List Lexeme) (cur : Nat) : Option Lexeme :=
  tokens.get? cur

/-- Parser::previous — `&self.tokens[self.current - 1]`; `current = 0`
underflows usize and panics, modelled as `none`. -/
def previous (tokens : List Lexeme) : Nat → Option Lexeme
  | 0 => none
  | n + 1 => tokens.get? n

/-- Parser::advance — `if !self.is_at_end() { self.current += 1; }
self.previous()`; `is_at_end` itself calls `peek`. Returns the token
`previous` yields together with the new cursor. -/
def advance (tokens : List Lexeme) (cur : Nat) : Option (Lexeme × Nat) :=
  match peek tokens cur with
  | none => none
  | some l =>
    let cur' := if l = .eof then cur else cur + 1
    match previous tokens cur' with
    | none => none
    | some p => some (p, cur')

/-- Parser::consume — peek, compare against the expected token, advance on a
match, report `UnmatchedParentheses` at end of input and `ExpectedToken`
otherwise. -/
def consume (tokens : List Lexeme) (expected : Lexeme) (cur : Nat) :
    Option (Except ParserError (Lexeme × Nat)) :=
  match peek tokens cur with
  | none => none
  | some l =>
    if l = expected then
      match advance tokens cur with
      | none => none
      | some r => some (.ok r)
    else if l = .eof then some (.error .unmatchedParentheses)
    else some (.error (.expectedToken expected))

/-- Parser::parse_literal (lines 164-178): advance, then match keyword
(`true`/`false`/`nil` render as themselves, any other keyword as `unknown`),
number (two-branch formatting), string (bare contents); anything else is an
`UnexpectedToken` error. -/
def parseLiteral (tokens : List Lexeme) (cur : Nat) : POut (String × Nat) :=
  match advance tokens cur with
  | none => .crash
  | some (lex, cur') =>
    match lex with
    | .keyword s =>
        .res (.ok (if s = "true" ∨ s = "false" ∨ s = "nil" then s else "unknown", cur'))
    | .number _ n => .res (.ok (renderNumberValue n, cur'))
    | .string s => .res (.ok (s, cur'))
    | unexpected => .res (.error (.unexpectedToken unexpected))

mutual

/-- Parser::parse_expression (lines 39-41). -/
def parseExpression (tokens : List Lexeme) : Nat → Nat → POut (String × Nat)
  | 0, _ => .fuelOut
  | fuel + 1, cur => parseEquality tokens fuel cur

/-- Parser::parse_equality (lines 43-57): one tighter parse, then the
left-associative `==`/`!=` fold loop (`equalityTail`). -/
def parseEquality (tokens : List Lexeme) : Nat → Nat → POut (String × Nat)
  | 0, _ => .fuelOut
  | fuel + 1, cur =>
    match parseComparison tokens fuel cur with
    | .res (.ok (e, cur')) => equalityTail tokens fuel e cur'
    | r => r

/-- The `while matches!(self.peek(), EqualEqual | BangEqual)` loop of
parse_equality. -/
def equalityTail (tokens : List Lexeme) : Nat → String → Nat → POut (String × Nat)
  | 0, _, _ => .fuelOut
  | fuel + 1, expr, cur =>
    match peek tokens cur with
    | none => .crash
    | some l =>
      if l = .equalEqual ∨ l = .bangEqual then
        match advance tokens cur with
        | none => .crash
        | some (op, cur') =>
          match parseComparison tokens fuel cur' with
          | .res (.ok (right, cur'')) =>
            if op = .equalEqual then
              equalityTail tokens fuel ("(== " ++ expr ++ " " ++ right ++ ")") cur''
            else if op = .bangEqual then
              equalityTail tokens fuel ("(!= " ++ expr ++ " " ++ right ++ ")") cur''
            else .crash
          | r => r
      else .res (.ok (expr, cur))

/-- Parser::parse_comparison (lines 59-78). -/
def parseComparison (tokens : List Lexeme) : Nat → Nat → POut (String × Nat)
  | 0, _ => .fuelOut
  | fuel + 1, cur =>
    match parseTerm tokens fuel cur with
    | .res (.ok (e, cur')) => comparisonTail tokens fuel e cur'
    | r => r

/-- The `>`/`<`/`>=`/`<=` fold loop of parse_comparison. -/
def comparisonTail (tokens : List Lexeme) : Nat → String → Nat → POut (String × Nat)
  | 0, _, _ => .fuelOut
  | fuel + 1, expr, cur =>
    match peek tokens cur with
    | none => .crash
    | some l =>
      if l = .greater ∨ l = .less ∨ l = .greaterEqual ∨ l = .lessEqual then
        match advance tokens cur with
        | none => .crash
        | some (op, cur') =>
          match parseTerm tokens fuel cur' with
          | .res (.ok (right, cur'')) =>
            if op = .greater then
              comparisonTail tokens fuel ("(> " ++ expr ++ " " ++ right ++ ")") cur''
            else if op = .less then
              comparisonTail tokens fuel ("(< " ++ expr ++ " " ++ right ++ ")") cur''
            else if op = .greaterEqual then
              comparisonTail tokens fuel ("(>= " ++ expr ++ " " ++ right ++ ")") cur''
            else if op = .lessEqual then
              comparisonTail tokens fuel ("(<= " ++ expr ++ " " ++ right ++ ")") cur''
            else .crash
          | r => r
      else .res (.ok (expr, cur))

/-- Parser::parse_term (lines 80-97). -/
def parseTerm (tokens : List Lexeme) : Nat → Nat → POut (String × Nat)
  | 0, _ => .fuelOut
  | fuel + 1, cur =>
    match parseFactor tokens fuel cur with
    | .res (.ok (e, cur')) => termTail tokens fuel e cur'
    | r => r

/-- The `+`/`-` fold loop of parse_term. -/
def termTail (tokens : List Lexeme) : Nat → String → Nat → POut (String × Nat)
  | 0, _, _ => .fuelOut
  | fuel + 1, expr, cur =>
    match peek tokens cur with
    | none => .crash
    | some l =>
      if l = .operator .plus ∨ l = .operator .minus then
        match advance tokens cur with
        | none => .crash
        | some (op, cur') =>
          match parseFactor tokens fuel cur' with
          | .res (.ok (right, cur'')) =>
            if op = .operator .plus then
              termTail tokens fuel ("(+ " ++ expr ++ " " ++ right ++ ")") cur''
            else if op = .operator .minus then
              termTail tokens fuel ("(- " ++ expr ++ " " ++ right ++ ")") cur''
            else .crash
          | r => r
      else .res (.ok (expr, cur))

/-- Parser::parse_factor (lines 99-116). -/
def parseFactor (tokens : List Lexeme) : Nat → Nat → POut (String × Nat)
  | 0, _ => .fuelOut
  | fuel + 1, cur =>
    match parseUnary tokens fuel cur with
    | .res (.ok (e, cur')) => factorTail tokens fuel e cur'
    | r => r

/-- The `*`/`/` fold loop of parse_factor. -/
def factorTail (tokens : List Lexeme) : Nat → String → Nat → POut (String × Nat)
  | 0, _, _ => .fuelOut
  | fuel + 1, expr, cur =>
    match peek tokens cur with
    | none => .crash
    | some l =>
      if l = .operator .star ∨ l = .operator .slash then
        match advance tokens cur with
        | none => .crash
        | some (op, cur') =>
          match parseUnary tokens fuel cur' with
          | .res (.ok (right, cur'')) =>
            if op = .operator .star then
              factorTail tokens fuel ("(* " ++ expr ++ " " ++ right ++ ")") cur''
            else if op = .operator .slash then
              factorTail tokens fuel ("(/ " ++ expr ++ " " ++ right ++ ")") cur''
            else .crash
          | r => r
      else .res (.ok (expr, cur))

/-- Parser::parse_unary (lines 118-132): prefix `!` / unary `-`
(right-recursive), grouping on `(`, literal otherwise. The `_ =>
Err(InvalidUnaryOperator)` arm of the source is kept. -/
def parseUnary (tokens : List Lexeme) : Nat → Nat → POut (String × Nat)
  | 0, _ => .fuelOut
  | fuel + 1, cur =>
    match peek tokens cur with
    | none => .crash
    | some l =>
      if l = .bang ∨ l = .operator .minus then
        match advance tokens cur with
        | none => .crash
        | some (op, cur') =>
          match parseUnary tokens fuel cur' with
          | .res (.ok (right, cur'')) =>
            if op = .bang then .res (.ok ("(! " ++ right ++ ")", cur''))
            else if op = .operator .minus then .res (.ok ("(- " ++ right ++ ")", cur''))
            else .res (.error (.invalidUnaryOperator op))
          | r => r
      else if l = .leftParen then parseGrouping tokens fuel cur
      else parseLiteral tokens cur

/-- Parser::parse_grouping (lines 134-142): consume `(`, parse the
comma-separated expressions, reject an empty list, require `)`. -/
def parseGrouping (tokens : List Lexeme) : Nat → Nat → POut (String × Nat)
  | 0, _ => .fuelOut
  | fuel + 1, cur =>
    match advance tokens cur with
    | none => .crash
    | some (_, cur') =>
      match groupedExpressions tokens fuel [] cur' with
      | .res (.ok (exprs, cur'')) =>
        if exprs.isEmpty then .res (.error .emptyGrouping)
        else
          match consume tokens .rightParen cur'' with
          | none => .crash
          | some (.ok (_, cur''')) =>
              .res (.ok ("(group " ++ String.intercalate ", " exprs ++ ")", cur'''))
          | some (.error e) => .res (.error e)
      | .res (.error e) => .res (.error e)
      | .crash => .crash
      | .fuelOut => .fuelOut

/-- Parser::parse_grouped_expressions (lines 144-162): loop collecting
expressions separated by commas, stopping before `)`, failing with
`UnmatchedParentheses` at end of input. `acc` is the `expressions` vector. -/
def groupedExpressions (tokens : List Lexeme) :
    Nat → List String → Nat → POut (List String × Nat)
  | 0, _, _ => .fuelOut
  | fuel + 1, acc, cur =>
    match peek tokens cur with
    | none => .crash
    | some l =>
      if l = .rightParen then .res (.ok (acc, cur))
      else if l = .eof then .res (.error .unmatchedParentheses)
      else
        match parseExpression tokens fuel cur with
        | .res (.ok (e, cur')) =>
          match peek tokens cur' with
          | none => .crash
          | some l' =>
            if l' = .comma then
              match advance tokens cur' with
              | none => .crash
              | some (_, cur'') => groupedExpressions tokens fuel (acc ++ [e]) cur''
            else .res (.ok (acc ++ [e], cur'))
        | .res (.error e) => .res (.error e)
        | .crash => .crash
        | .fuelOut => .fuelOut

end

/-- The `while !self.is_at_end()` loop of Parser::parse (lines 30-37): parse
one expression per iteration and append it plus a newline to the output. -/
def parseLoop (tokens : List Lexeme) : Nat → String → Nat → POut String
  | 0, _, _ => .fuelOut
  | fuel + 1, acc, cur =>
    match peek tokens cur with
    | none => .crash
    | some l =>
      if l = .eof then .res (.ok acc)
      else
        match parseExpression tokens fuel cur with
        | .res (.ok (e, cur')) => parseLoop tokens fuel (acc ++ e ++ "\n") cur'
        | .res (.error err) => .res (.error err)
        | .crash => .crash
        | .fuelOut => .fuelOut

/-- Parser::parse on a token slice, with a fuel budget that the no-crash /
no-fuel-out development below shows is never exhausted on scanner output. -/
def parse (tokens : List Lexeme) : POut String :=
  parseLoop tokens (8 * tokens.length + 8) "" 0

theorem takeWhile_append_stop {p : Char → Bool} {q : Char} (hq : p q = false)
    (l t : List Char) : (l ++ q :: t).takeWhile p = l.takeWhile p := by
  induction l with
  | nil => simp [List.takeWhile, hq]
  | cons a l ih =>
    simp only [List.cons_append, List.takeWhile]
    cases p a <;> simp [ih]

theorem dropWhile_append_stop {p : Char → Bool} {q : Char} (hq : p q = false)
    (l t : List Char) : (l ++ q :: t).dropWhile p = l.dropWhile p ++ q :: t := by
  induction l with
  | nil => simp [List.dropWhile, hq]
  | cons a l ih =>
    simp only [List.cons_append, List.dropWhile]
    cases p a <;> simp [ih]

theorem count_dropWhile_of_stop {p : Char → Bool} {a : Char} (ha : p a = false)
    (l : List Char) : (l.dropWhile p).count a = l.count a := by
  induction l with
  | nil => rfl
  | cons b l ih =>
    simp only [List.dropWhile]
    cases hb : p b
    · rfl
    · have hab : b ≠ a := by rintro rfl; rw [ha] at hb; exact Bool.false_ne_true hb
      simp [List.count_cons, hab, ih]

theorem takeStr_line (l : List Char) :
    ∀ line, (takeStr l line).line + ((takeStr l line).rest.count '\n') =
      line + l.count '\n' := by
  induction l with
  | nil => intro line; simp [takeStr]
  | cons d ds ih =>
    intro line
    simp only [takeStr]
    split
    · rename_i hd
      subst hd
      simp [List.count_cons]
    · rename_i hd
      by_cases hnl : d = '\n'
      · subst hnl
        have h1 := ih (line + 1)
        simp only [List.count_cons, if_pos rfl] at h1 ⊢
        simp only [show (('\n' : Char) == '\n') = true from rfl, if_pos] at h1 ⊢
        omega
      · have h1 := ih line
        have hne : ((d : Char) == '\n') = false := by
          simp only [beq_eq_false_iff_ne, ne_eq]
          exact hnl
        simp only [if_neg hnl, List.count_cons, hne, Bool.false_eq_true, if_false] at h1 ⊢
        omega

theorem takeStr_rest_suffix (l : List Char) :
    ∀ line, (takeStr l line).rest <:+ l := by
  induction l with
  | nil => intro line; simp [takeStr]
  | cons d ds ih =>
    intro line
    simp only [takeStr]
    split
    · exact List.suffix_cons d ds
    · exact (ih _).trans (List.suffix_cons d ds)

/-- String-literal loop on input with no closing quote: everything is
consumed, the literal is unterminated, and the line counter advances once per
newline consumed. -/
theorem takeStr_no_quote {l : List Char} (h : '"' ∉ l) :
    ∀ line, takeStr l line = ⟨l, false, [], line + l.count '\n'⟩ := by
  induction l with
  | nil => intro line; simp [takeStr]
  | cons d ds ih =>
    intro line
    have hd : d ≠ '"' := fun he => h (he ▸ List.mem_cons_self d ds)
    have hds : '"' ∉ ds := fun hm => h (List.mem_cons_of_mem d hm)
    simp only [takeStr, if_neg hd, ih hds]
    by_cases hnl : d = '\n'
    · subst hnl
      simp only [if_pos rfl, List.count_cons,
        show (('\n' : Char) == '\n') = true from rfl, if_pos, StrScan.mk.injEq]
      exact ⟨by trivial, by trivial, by trivial, by omega⟩
    · have hne : ((d : Char) == '\n') = false := by
        simp only [beq_eq_false_iff_ne, ne_eq]
        exact hnl
      simp [if_neg hnl, List.count_cons, hne]

/-- String-literal loop through the first closing quote: the contents before
the quote are returned verbatim, scanning resumes after the quote. -/
theorem takeStr_through_quote {s : List Char} (h : '"' ∉ s) (r : List Char) :
    ∀ line, takeStr (s ++ '"' :: r) line = ⟨s, true, r, line + s.count '\n'⟩ := by
  induction s with
  | nil => intro line; simp [takeStr]
  | cons d ds ih =>
    intro line
    have hd : d ≠ '"' := fun he => h (he ▸ List.mem_cons_self d ds)
    have hds : '"' ∉ ds := fun hm => h (List.mem_cons_of_mem d hm)
    simp only [List.cons_append, takeStr, if_neg hd, List.append_eq, ih hds]
    by_cases hnl : d = '\n'
    · subst hnl
      simp only [if_pos rfl, List.count_cons,
        show (('\n' : Char) == '\n') = true from rfl, if_pos, StrScan.mk.injEq]
      exact ⟨by trivial, by trivial, by trivial, by omega⟩
    · have hne : ((d : Char) == '\n') = false := by
        simp only [beq_eq_false_iff_ne, ne_eq]
        exact hnl
      simp [if_neg hnl, List.count_cons, hne]

/-- Case principle for `scanStep`: every dispatch outcome of one main-loop
iteration, with the classification fact that selected it. The branch
hypotheses are mutually exclusive because the character classes of the
dispatch are disjoint. -/
theorem scanStep_elim (c : Char) (cs : List Char) (line : Nat)
    (motive : ScanStep → Prop)
    (hws : c = ' ' ∨ c = '\t' ∨ c = '\r' → motive ⟨[], false, line, cs⟩)
    (hnl : c = '\n' → motive ⟨[], false, line + 1, cs⟩)
    (hlp : c = '(' → motive ⟨[.leftParen], false, line, cs⟩)
    (hrp : c = ')' → motive ⟨[.rightParen], false, line, cs⟩)
    (hlb : c = '{' → motive ⟨[.leftBrace], false, line, cs⟩)
    (hrb : c = '}' → motive ⟨[.rightBrace], false, line, cs⟩)
    (hcm : c = ',' → motive ⟨[.comma], false, line, cs⟩)
    (hdt : c = '.' → motive ⟨[.dot], false, line, cs⟩)
    (hsc : c = ';' → motive ⟨[.semicolon], false, line, cs⟩)
    (heq2 : c = '=' → cs.head? = some '=' → motive ⟨[.equalEqual], false, line, cs.tail⟩)
    (heq1 : c = '=' → ¬cs.head? = some '=' → motive ⟨[.equal], false, line, cs⟩)
    (hbg2 : c = '!' → cs.head? = some '=' → motive ⟨[.bangEqual], false, line, cs.tail⟩)
    (hbg1 : c = '!' → ¬cs.head? = some '=' → motive ⟨[.bang], false, line, cs⟩)
    (hls2 : c = '<' → cs.head? = some '=' → motive ⟨[.lessEqual], false, line, cs.tail⟩)
    (hls1 : c = '<' → ¬cs.head? = some '=' → motive ⟨[.less], false, line, cs⟩)
    (hgt2 : c = '>' → cs.head? = some '=' → motive ⟨[.greaterEqual], false, line, cs.tail⟩)
    (hgt1 : c = '>' → ¬cs.head? = some '=' → motive ⟨[.greater], false, line, cs⟩)
    (hnum2 : c.isDigit = true → (mainTakeNumber (c :: cs) false).2.head? = some '.' →
      motive ⟨[.number (String.mk (mainTakeNumber (c :: cs) false).1)
          (parseDec (mainTakeNumber (c :: cs) false).1), .dot],
        false, line, (mainTakeNumber (c :: cs) false).2.tail⟩)
    (hnum1 : c.isDigit = true → ¬(mainTakeNumber (c :: cs) false).2.head? = some '.' →
      motive ⟨[.number (String.mk (mainTakeNumber (c :: cs) false).1)
          (parseDec (mainTakeNumber (c :: cs) false).1)],
        false, line, (mainTakeNumber (c :: cs) false).2⟩)
    (hid : isStartChar c = true →
      motive ⟨[if String.mk ((c :: cs).takeWhile isIdentChar) ∈ mainKeywords then
          Lexeme.keyword (String.mk ((c :: cs).takeWhile isIdentChar))
        else
          Lexeme.identifier (String.mk ((c :: cs).takeWhile isIdentChar))],
        false, line, (c :: cs).dropWhile isIdentChar⟩)
    (hstr2 : c = '"' → (takeStr cs line).terminated = true →
      motive ⟨[.string (String.mk (takeStr cs line).content)], false,
        (takeStr cs line).line, (takeStr cs line).rest⟩)
    (hstr1 : c = '"' → (takeStr cs line).terminated = false →
      motive ⟨[.unterminatedStringError line], true,
        (takeStr cs line).line, (takeStr cs line).rest⟩)
    (hpl : c = '+' → motive ⟨[.operator .plus], false, line, cs⟩)
    (hmn : c = '-' → motive ⟨[.operator .minus], false, line, cs⟩)
    (hst : c = '*' → motive ⟨[.operator .star], false, line, cs⟩)
    (hsl2 : c = '/' → cs.head? = some '/' →
      motive ⟨[], false, line, cs.tail.dropWhile (fun d => d ≠ '\n')⟩)
    (hsl1 : c = '/' → ¬cs.head? = some '/' → motive ⟨[.operator .slash], false, line, cs⟩)
    (hun : isHandled c = false → motive ⟨[.unexpectedCharError line c], true, line, cs⟩) :
    motive (scanStep c cs line) := by
  by_cases h1 : c = ' ' ∨ c = '\t' ∨ c = '\r'
  · have h2 := hws h1
    rcases h1 with rfl | rfl | rfl <;> exact h2
  by_cases h2 : c = '\n'
  · subst h2; exact hnl rfl
  by_cases h3 : c = '('
  · subst h3; exact hlp rfl
  by_cases h4 : c = ')'
  · subst h4; exact hrp rfl
  by_cases h5 : c = '{'
  · subst h5; exact hlb rfl
  by_cases h6 : c = '}'
  · subst h6; exact hrb rfl
  by_cases h7 : c = ','
  · subst h7; exact hcm rfl
  by_cases h8 : c = '.'
  · subst h8; exact hdt rfl
  by_cases h9 : c = ';'
  · subst h9; exact hsc rfl
  by_cases h10 : c = '='
  · subst h10
    by_cases hh : cs.head? = some '='
    · have h0 := heq2 rfl hh
      simpa [scanStep, hh] using h0
    · have h0 := heq1 rfl hh
      simpa [scanStep, hh] using h0
  by_cases h11 : c = '!'
  · subst h11
    by_cases hh : cs.head? = some '='
    · have h0 := hbg2 rfl hh
      simpa [scanStep, hh] using h0
    · have h0 := hbg1 rfl hh
      simpa [scanStep, hh] using h0
  by_cases h12 : c = '<'
  · subst h12
    by_cases hh : cs.head? = some '='
    · have h0 := hls2 rfl hh
      simpa [scanStep, hh] using h0
    · have h0 := hls1 rfl hh
      simpa [scanStep, hh] using h0
  by_cases h13 : c = '>'
  · subst h13
    by_cases hh : cs.head? = some '='
    · have h0 := hgt2 rfl hh
      simpa [scanStep, hh] using h0
    · have h0 := hgt1 rfl hh
      simpa [scanStep, hh] using h0
  by_cases h14 : c.isDigit = true
  · rw [scanStep_digit cs line h14]
    by_cases hh : (mainTakeNumber (c :: cs) false).2.head? = some '.'
    · rw [if_pos hh]; exact hnum2 h14 hh
    · rw [if_neg hh]; exact hnum1 h14 hh
  by_cases h15 : isStartChar c = true
  · rw [scanStep_start cs line h15]
    exact hid h15
  by_cases h16 : c = '"'
  · subst h16
    by_cases hh : (takeStr cs line).terminated = true
    · have h0 := hstr2 rfl hh
      simpa [scanStep, hh] using h0
    · have h0 := hstr1 rfl (by simpa using hh)
      simpa [scanStep, hh] using h0
  by_cases h17 : c = '+'
  · subst h17; exact hpl rfl
  by_cases h18 : c = '-'
  · subst h18; exact hmn rfl
  by_cases h19 : c = '*'
  · subst h19; exact hst rfl
  by_cases h20 : c = '/'
  · subst h20
    by_cases hh : cs.head? = some '/'
    · have h0 := hsl2 rfl hh
      simpa [scanStep, hh, show isStartChar '/' = false from rfl] using h0
    · have h0 := hsl1 rfl hh
      simpa [scanStep, hh, show isStartChar '/' = false from rfl] using h0
  · clear hws hnl hlp hrp hlb hrb hcm hdt hsc heq2 heq1 hbg2 hbg1 hls2 hls1 hgt2 hgt1
    clear hnum2 hnum1 hid hstr2 hstr1 hpl hmn hst hsl2 hsl1
    have h21 : isHandled c = false := by
      by_contra hbc
      rw [Bool.not_eq_false] at hbc
      simp only [isHandled, Bool.or_eq_true, decide_eq_true_eq] at hbc
      tauto
    rw [scanStep_unhandled cs line h21]
    exact hun h21

/-- The two error variants of `Lexeme`. -/
def isErrTok : Lexeme → Bool
  | .unexpectedCharError _ _ => true
  | .unterminatedStringError _ => true
  | _ => false

/-- String-literal tokens. -/
def isStringTok : Lexeme → Bool
  | .string _ => true
  | _ => false

/-- Unterminated-string error tokens. -/
def isUntermTok : Lexeme → Bool
  | .unterminatedStringError _ => true
  | _ => false

theorem scanStep_no_eof (c : Char) (cs : List Char) (line : Nat) :
    Lexeme.eof ∉ (scanStep c cs line).toks := by
  apply scanStep_elim c cs line (fun s => Lexeme.eof ∉ s.toks)
  all_goals intros
  all_goals first
    | (split <;> simp)
    | simp

theorem scanStep_err_iff (c : Char) (cs : List Char) (line : Nat) :
    ((scanStep c cs line).err = true ↔
      ∃ t ∈ (scanStep c cs line).toks, isErrTok t = true) := by
  apply scanStep_elim c cs line (fun s => s.err = true ↔ ∃ t ∈ s.toks, isErrTok t = true)
  all_goals intros
  all_goals first
    | (split <;> simp [isErrTok])
    | simp [isErrTok]

theorem scanStep_rest_suffix (c : Char) (cs : List Char) (line : Nat) :
    (scanStep c cs line).rest <:+ c :: cs := by
  apply scanStep_elim c cs line (fun s => s.rest <:+ c :: cs)
  all_goals intros
  all_goals try exact List.suffix_cons c cs
  · exact (List.tail_suffix cs).trans (List.suffix_cons c cs)
  · exact (List.tail_suffix cs).trans (List.suffix_cons c cs)
  · exact (List.tail_suffix cs).trans (List.suffix_cons c cs)
  · exact (List.tail_suffix cs).trans (List.suffix_cons c cs)
  · rename_i h1 h2
    rw [mainTakeNumber_eq]
    exact (List.tail_suffix _).trans (List.dropWhile_suffix _)
  · rename_i h1 h2
    rw [mainTakeNumber_eq]
    exact List.dropWhile_suffix _
  · exact List.dropWhile_suffix _
  · exact (takeStr_rest_suffix cs line).trans (List.suffix_cons c cs)
  · exact (takeStr_rest_suffix cs line).trans (List.suffix_cons c cs)
  · exact ((List.dropWhile_suffix _).trans (List.tail_suffix cs)).trans (List.suffix_cons c cs)

theorem scanStep_clean_all (c : Char) (cs : List Char) (line : Nat) (hc : c ≠ '"') :
    (scanStep c cs line).toks.all (fun t => !(isStringTok t) && !(isUntermTok t)) = true := by
  apply scanStep_elim c cs line
    (fun s => s.toks.all (fun t => !(isStringTok t) && !(isUntermTok t)) = true)
  all_goals first
    | (intro _; split <;> simp [isStringTok, isUntermTok])
    | simp [isStringTok, isUntermTok, hc]

theorem scanStep_clean (c : Char) (cs : List Char) (line : Nat) (hc : c ≠ '"') :
    ∀ t ∈ (scanStep c cs line).toks, isStringTok t = false ∧ isUntermTok t = false := by
  intro t ht
  have h1 := scanStep_clean_all c cs line hc
  rw [List.all_eq_true] at h1
  have h2 := h1 t ht
  simp only [Bool.and_eq_true, Bool.not_eq_true'] at h2
  exact h2

theorem count_takeWhile_zero {p : Char → Bool} (hp : p '\n' = false) (l : List Char) :
    (l.takeWhile p).count '\n' = 0 := by
  rw [List.count_eq_zero]
  intro hm
  have h1 := List.mem_takeWhile_imp hm
  rw [hp] at h1
  exact Bool.false_ne_true h1

theorem count_dropWhile_eq {p : Char → Bool} (hp : p '\n' = false) (l : List Char) :
    (l.dropWhile p).count '\n' = l.count '\n' := by
  conv_rhs => rw [← List.takeWhile_append_dropWhile (p := p) (l := l)]
  rw [List.count_append, count_takeWhile_zero hp]
  omega

/-- One dispatch iteration advances the line counter exactly once per newline
consumed: final line plus newlines still unread equals initial line plus all
newlines in view. -/
theorem scanStep_line (c : Char) (cs : List Char) (line : Nat) :
    (scanStep c cs line).line + (scanStep c cs line).rest.count '\n' =
      line + (c :: cs).count '\n' := by
  apply scanStep_elim c cs line
    (fun s => s.line + s.rest.count '\n' = line + (c :: cs).count '\n')
  case hws => rintro (rfl | rfl | rfl) <;> simp [List.count_cons]
  case hnl =>
    rintro rfl
    simp [List.count_cons]
    omega
  case hlp => rintro rfl; simp [List.count_cons]
  case hrp => rintro rfl; simp [List.count_cons]
  case hlb => rintro rfl; simp [List.count_cons]
  case hrb => rintro rfl; simp [List.count_cons]
  case hcm => rintro rfl; simp [List.count_cons]
  case hdt => rintro rfl; simp [List.count_cons]
  case hsc => rintro rfl; simp [List.count_cons]
  case heq2 =>
    rintro rfl hh
    rcases cs with _ | ⟨x, tl⟩
    · simp at hh
    · simp only [List.head?_cons, Option.some.injEq] at hh
      subst hh
      simp [List.count_cons]
  case heq1 => rintro rfl _; simp [List.count_cons]
  case hbg2 =>
    rintro rfl hh
    rcases cs with _ | ⟨x, tl⟩
    · simp at hh
    · simp only [List.head?_cons, Option.some.injEq] at hh
      subst hh
      simp [List.count_cons]
  case hbg1 => rintro rfl _; simp [List.count_cons]
  case hls2 =>
    rintro rfl hh
    rcases cs with _ | ⟨x, tl⟩
    · simp at hh
    · simp only [List.head?_cons, Option.some.injEq] at hh
      subst hh
      simp [List.count_cons]
  case hls1 => rintro rfl _; simp [List.count_cons]
  case hgt2 =>
    rintro rfl hh
    rcases cs with _ | ⟨x, tl⟩
    · simp at hh
    · simp only [List.head?_cons, Option.some.injEq] at hh
      subst hh
      simp [List.count_cons]
  case hgt1 => rintro rfl _; simp [List.count_cons]
  case hnum2 =>
    intro hdig hh
    rw [mainTakeNumber_eq] at hh ⊢
    rcases hR : (c :: cs).dropWhile Char.isDigit with _ | ⟨x, xs⟩
    · rw [hR] at hh; simp at hh
    · rw [hR] at hh
      simp only [List.head?_cons, Option.some.injEq] at hh
      subst hh
      have hsplit := congrArg (List.count '\n')
        (List.takeWhile_append_dropWhile (p := Char.isDigit) (l := c :: cs))
      rw [List.count_append, count_takeWhile_zero (by decide), hR] at hsplit
      have hn : c ≠ '\n' := by rintro rfl; exact absurd hdig (by decide)
      simp only [List.tail_cons]
      simp [List.count_cons, hn] at hsplit ⊢
      omega
  case hnum1 =>
    intro hdig _
    rw [mainTakeNumber_eq]
    rw [count_dropWhile_eq (by decide)]
  case hid =>
    intro _
    rw [count_dropWhile_eq (by decide)]
  case hstr2 =>
    rintro rfl _
    have h1 := takeStr_line cs line
    simp [List.count_cons]
    omega
  case hstr1 =>
    rintro rfl _
    have h1 := takeStr_line cs line
    simp [List.count_cons]
    omega
  case hpl => rintro rfl; simp [List.count_cons]
  case hmn => rintro rfl; simp [List.count_cons]
  case hst => rintro rfl; simp [List.count_cons]
  case hsl2 =>
    rintro rfl hh
    rcases cs with _ | ⟨x, tl⟩
    · simp at hh
    · simp only [List.head?_cons, Option.some.injEq] at hh
      subst hh
      simp only [List.tail_cons]
      rw [count_dropWhile_eq (by decide)]
      simp [List.count_cons]
  case hsl1 => rintro rfl _; simp [List.count_cons]
  case hun =>
    intro hu
    have hn : c ≠ '\n' := by
      rintro rfl
      exact absurd hu (by decide)
    have hne : ((c : Char) == '\n') = false := by
      simp only [beq_eq_false_iff_ne, ne_eq]
      exact hn
    simp [List.count_cons, hne]

/-- Locality of one dispatch iteration: input after the position of an
upcoming `"` (with the dispatched character neither `"` nor `/`) is carried
along unread — the iteration emits the same tokens, error flag and line, and
leaves the extra input appended to its rest. -/
theorem scanStep_append (c : Char) (cs t : List Char) (line : Nat)
    (hq : c ≠ '"') (hs : c ≠ '/') :
    scanStep c (cs ++ '"' :: t) line =
      ⟨(scanStep c cs line).toks, (scanStep c cs line).err,
        (scanStep c cs line).line, (scanStep c cs line).rest ++ '"' :: t⟩ := by
  apply scanStep_elim c cs line
    (fun s => scanStep c (cs ++ '"' :: t) line = ⟨s.toks, s.err, s.line, s.rest ++ '"' :: t⟩)
  case hws => rintro (rfl | rfl | rfl) <;> rfl
  case hnl => rintro rfl; rfl
  case hlp => rintro rfl; rfl
  case hrp => rintro rfl; rfl
  case hlb => rintro rfl; rfl
  case hrb => rintro rfl; rfl
  case hcm => rintro rfl; rfl
  case hdt => rintro rfl; rfl
  case hsc => rintro rfl; rfl
  case heq2 =>
    rintro rfl hh
    rcases cs with _ | ⟨x, tl⟩
    · simp at hh
    · simp only [List.head?_cons, Option.some.injEq] at hh
      subst hh
      rfl
  case heq1 =>
    rintro rfl hh
    rcases cs with _ | ⟨x, tl⟩
    · rfl
    · have hx : ¬ (x = '=') := by simpa using hh
      simp [scanStep, hx]
  case hbg2 =>
    rintro rfl hh
    rcases cs with _ | ⟨x, tl⟩
    · simp at hh
    · simp only [List.head?_cons, Option.some.injEq] at hh
      subst hh
      rfl
  case hbg1 =>
    rintro rfl hh
    rcases cs with _ | ⟨x, tl⟩
    · rfl
    · have hx : ¬ (x = '=') := by simpa using hh
      simp [scanStep, hx]
  case hls2 =>
    rintro rfl hh
    rcases cs with _ | ⟨x, tl⟩
    · simp at hh
    · simp only [List.head?_cons, Option.some.injEq] at hh
      subst hh
      rfl
  case hls1 =>
    rintro rfl hh
    rcases cs with _ | ⟨x, tl⟩
    · rfl
    · have hx : ¬ (x = '=') := by simpa using hh
      simp [scanStep, hx]
  case hgt2 =>
    rintro rfl hh
    rcases cs with _ | ⟨x, tl⟩
    · simp at hh
    · simp only [List.head?_cons, Option.some.injEq] at hh
      subst hh
      rfl
  case hgt1 =>
    rintro rfl hh
    rcases cs with _ | ⟨x, tl⟩
    · rfl
    · have hx : ¬ (x = '=') := by simpa using hh
      simp [scanStep, hx]
  case hnum2 =>
    intro hdig hh
    rw [scanStep_digit (cs ++ '"' :: t) line hdig]
    simp only [mainTakeNumber_eq] at hh ⊢
    rw [show c :: (cs ++ '"' :: t) = (c :: cs) ++ '"' :: t from rfl,
      takeWhile_append_stop (by decide) (c :: cs) t,
      dropWhile_append_stop (by decide) (c :: cs) t]
    rcases hR : (c :: cs).dropWhile Char.isDigit with _ | ⟨x, xs⟩
    · rw [hR] at hh
      simp at hh
    · rw [hR] at hh
      simp at hh
      subst hh
      simp
  case hnum1 =>
    intro hdig hh
    rw [scanStep_digit (cs ++ '"' :: t) line hdig]
    simp only [mainTakeNumber_eq] at hh ⊢
    rw [show c :: (cs ++ '"' :: t) = (c :: cs) ++ '"' :: t from rfl,
      takeWhile_append_stop (by decide) (c :: cs) t,
      dropWhile_append_stop (by decide) (c :: cs) t]
    rcases hR : (c :: cs).dropWhile Char.isDigit with _ | ⟨x, xs⟩
    · simp
    · rw [hR] at hh
      have hx : ¬ (x = '.') := by simpa using hh
      simp [hx]
  case hid =>
    intro hstart
    rw [scanStep_start (cs ++ '"' :: t) line hstart]
    rw [show c :: (cs ++ '"' :: t) = (c :: cs) ++ '"' :: t from rfl,
      takeWhile_append_stop (by decide) (c :: cs) t,
      dropWhile_append_stop (by decide) (c :: cs) t]
  case hstr2 => rintro rfl _; exact absurd rfl hq
  case hstr1 => rintro rfl _; exact absurd rfl hq
  case hpl => rintro rfl; rfl
  case hmn => rintro rfl; rfl
  case hst => rintro rfl; rfl
  case hsl2 => rintro rfl _; exact absurd rfl hs
  case hsl1 => rintro rfl _; exact absurd rfl hs
  case hun =>
    intro hu
    rw [scanStep_unhandled (cs ++ '"' :: t) line hu]

/-- The scanner body never pushes the end-of-input marker; it is appended once
at top level. -/
theorem scanBody_no_eof (l : List Char) (line : Nat) :
    Lexeme.eof ∉ (scanBody l line).toks := by
  induction l, line using scanBody.induct with
  | case1 line => simp [scanBody_nil]
  | case2 line c cs s ih =>
    rw [scanBody_cons]
    simp only [List.mem_append]
    rintro (h | h)
    · exact scanStep_no_eof c cs line h
    · exact ih h

/-- The scanner body's error flag is set exactly when an error token was
pushed. -/
theorem scanBody_err_iff (l : List Char) (line : Nat) :
    ((scanBody l line).err = true ↔
      ∃ t ∈ (scanBody l line).toks, isErrTok t = true) := by
  induction l, line using scanBody.induct with
  | case1 line => simp [scanBody_nil]
  | case2 line c cs s ih =>
    rw [scanBody_cons]
    simp only [Bool.or_eq_true, List.mem_append]
    constructor
    · rintro (h | h)
      · obtain ⟨t, ht, he⟩ := (scanStep_err_iff c cs line).mp h
        exact ⟨t, Or.inl ht, he⟩
      · obtain ⟨t, ht, he⟩ := ih.mp h
        exact ⟨t, Or.inr ht, he⟩
    · rintro ⟨t, ht | ht, he⟩
      · exact Or.inl ((scanStep_err_iff c cs line).mpr ⟨t, ht, he⟩)
      · exact Or.inr (ih.mpr ⟨t, ht, he⟩)

/-- The line counter after a full scan is the initial line plus the number of
newline characters in the input. -/
theorem scanBody_line (l : List Char) (line : Nat) :
    (scanBody l line).line = line + l.count '\n' := by
  induction l, line using scanBody.induct with
  | case1 line => simp [scanBody_nil]
  | case2 line c cs s ih =>
    have hs : s = scanStep c cs line := rfl
    rw [hs] at ih
    rw [scanBody_cons]
    have h1 := scanStep_line c cs line
    rw [ih]
    omega

/-- A scan of quote-free input produces no string tokens and no
unterminated-string errors. -/
theorem scanBody_clean (l : List Char) (line : Nat) (hq : '"' ∉ l) :
    ∀ t ∈ (scanBody l line).toks, isStringTok t = false ∧ isUntermTok t = false := by
  induction l, line using scanBody.induct with
  | case1 line => simp [scanBody_nil]
  | case2 line c cs s ih =>
    rw [scanBody_cons]
    intro t ht
    rw [List.mem_append] at ht
    have hc : c ≠ '"' := fun he => hq (he ▸ List.mem_cons_self c cs)
    rcases ht with ht | ht
    · exact scanStep_clean c cs line hc t ht
    · have hsub : '"' ∉ (scanStep c cs line).rest := fun hm =>
        hq ((scanStep_rest_suffix c cs line).subset hm)
      exact ih hsub t ht

/-- Decomposition of a scan at the opening quote of a string literal: if `p`
contains no quote (so the `"` after it opens a literal) and no slash (so no
comment can swallow the quote), scanning `p ++ '"' :: t` is scanning `p`, then
scanning from the quote at the line the scan of `p` reached, with tokens
concatenated and error flags or-ed. -/
theorem scanBody_append (p t : List Char) (line : Nat) :
    '"' ∉ p → '/' ∉ p →
    scanBody (p ++ '"' :: t) line =
      ⟨(scanBody p line).toks ++ (scanBody ('"' :: t) ((scanBody p line).line)).toks,
        (scanBody p line).err || (scanBody ('"' :: t) ((scanBody p line).line)).err,
        (scanBody ('"' :: t) ((scanBody p line).line)).line⟩ := by
  induction p, line using scanBody.induct with
  | case1 line =>
    intro _ _
    simp [scanBody_nil]
  | case2 line c cs s ih =>
    intro hq hs
    have hs0 : s = scanStep c cs line := rfl
    rw [hs0] at ih
    have hc : c ≠ '"' := fun he => hq (he ▸ List.mem_cons_self c cs)
    have hc2 : c ≠ '/' := fun he => hs (he ▸ List.mem_cons_self c cs)
    have hrq : '"' ∉ (scanStep c cs line).rest := fun hm =>
      hq ((scanStep_rest_suffix c cs line).subset hm)
    have hrs : '/' ∉ (scanStep c cs line).rest := fun hm =>
      hs ((scanStep_rest_suffix c cs line).subset hm)
    rw [show (c :: cs) ++ '"' :: t = c :: (cs ++ '"' :: t) from rfl]
    rw [scanBody_cons]
    rw [scanStep_append c cs t line hc hc2]
    conv_rhs => rw [scanBody_cons]
    simp only []
    rw [ih hrq hrs]
    simp [List.append_assoc, Bool.or_assoc]

/-- Scanning from an opening quote that is never closed: exactly one
unterminated-string error token, tagged with the opening line, error flag
set, everything consumed, newlines inside still counted. -/
theorem scanBody_quote_unterminated (t : List Char) (line : Nat) (ht : '"' ∉ t) :
    scanBody ('"' :: t) line =
      ⟨[.unterminatedStringError line], true, line + t.count '\n'⟩ := by
  rw [scanBody_cons]
  have hstep : scanStep '"' t line =
      ⟨[.unterminatedStringError line], true, line + t.count '\n', []⟩ := by
    have h1 : takeStr t line = ⟨t, false, [], line + t.count '\n'⟩ := takeStr_no_quote ht line
    show (if (takeStr t line).terminated then _ else _) = _
    rw [h1]
    simp
  rw [hstep]
  simp [scanBody_nil]

/-- Scanning a whole input consisting of one terminated string literal:
exactly one string token carrying the contents verbatim. -/
theorem scanBody_quote_terminated (s : List Char) (line : Nat) (hs : '"' ∉ s) :
    scanBody ('"' :: (s ++ ['"'])) line =
      ⟨[.string (String.mk s)], false, line + s.count '\n'⟩ := by
  rw [scanBody_cons]
  have hstep : scanStep '"' (s ++ ['"']) line =
      ⟨[.string (String.mk s)], false, line + s.count '\n', []⟩ := by
    have h1 : takeStr (s ++ '"' :: []) line = ⟨s, true, [], line + s.count '\n'⟩ :=
      takeStr_through_quote hs [] line
    show (if (takeStr (s ++ ['"']) line).terminated then _ else _) = _
    rw [show (s ++ ['"'] : List Char) = s ++ '"' :: [] from rfl, h1]
    simp
  rw [hstep]
  simp [scanBody_nil]

/-- Scanning input that is one maximal identifier run: a single token,
keyword exactly when the run is in the reserved-word list. -/
theorem scanBody_ident (c : Char) (cs : List Char) (line : Nat)
    (h1 : isStartChar c = true) (h2 : ∀ x ∈ cs, isIdentChar x = true) :
    scanBody (c :: cs) line =
      ⟨[if String.mk (c :: cs) ∈ mainKeywords then Lexeme.keyword (String.mk (c :: cs))
        else Lexeme.identifier (String.mk (c :: cs))], false, line⟩ := by
  have hall : ∀ x ∈ c :: cs, isIdentChar x = true := by
    intro x hx
    rcases List.mem_cons.mp hx with rfl | hx
    · exact isStartChar_isIdentChar h1
    · exact h2 x hx
  have htw : (c :: cs).takeWhile isIdentChar = c :: cs :=
    List.takeWhile_eq_self_iff.mpr hall
  have hdw : (c :: cs).dropWhile isIdentChar = [] :=
    List.dropWhile_eq_nil_iff.mpr (fun x hx => hall x hx)
  rw [scanBody_cons, scanStep_start cs line h1]
  simp only [htw, hdw]
  simp [scanBody_nil]

theorem tokenizerScanBody_nil (line : Nat) :
    tokenizerScanBody [] line = ⟨[], false, line⟩ := by
  rw [tokenizerScanBody]

theorem tokenizerScanBody_cons (c : Char) (cs : List Char) (line : Nat) :
    tokenizerScanBody (c :: cs) line =
      ⟨(tokenizerScanStep c cs line).toks ++
          (tokenizerScanBody (tokenizerScanStep c cs line).rest
            (tokenizerScanStep c cs line).line).toks,
        (tokenizerScanStep c cs line).err ||
          (tokenizerScanBody (tokenizerScanStep c cs line).rest
            (tokenizerScanStep c cs line).line).err,
        (tokenizerScanBody (tokenizerScanStep c cs line).rest
          (tokenizerScanStep c cs line).line).line⟩ := by
  rw [tokenizerScanBody]

/-- C1: number scanning is claimed to consume a maximal digit run extended by
one `.` only when followed by a digit, making "123.456" one number token. The
`tokenize` in `src/main.rs` violates this: its lookahead tests `chars.peek()`
— still the `.` itself — so "123.456" scans as Number("123"), Dot,
Number("456"); `Tokenizer::handle_number` in `src/tokenizer.rs` implements the
claimed behaviour ("123.456" is one number token rendering 123.456), and both
agree on "123." (number then separate dot token). -/
theorem C1_number_scan_eval :
    (mainScan "123.456".toList).toks =
      [.number "123" 123, .dot, .number "456" 456, .eof] ∧
    (tokenizerScan "123.456".toList).toks =
      [.number "123.456" ((123456 : ℚ) / 1000), .eof] ∧
    (mainScan "123.".toList).toks = [.number "123" 123, .dot, .eof] ∧
    (tokenizerScan "123.".toList).toks = [.number "123" 123, .dot, .eof] ∧
    Lexeme.render (.number "123.456" ((123456 : ℚ) / 1000)) = "NUMBER 123.456 123.456" ∧
    Lexeme.render (.number "123" 123) = "NUMBER 123 123.0" := by
  refine ⟨?_, ?_, ?_, ?_, ?_, ?_⟩
  · simp [mainScan, scanBody_cons, scanBody_nil, scanStep, mainTakeNumber, parseDec,
      digitsVal, isStartChar, isHandled]
  · simp [tokenizerScan, tokenizerScanBody_cons, tokenizerScanBody_nil, tokenizerScanStep,
      tokenizerTakeNumber, parseDec, digitsVal, isStartChar, isHandled]
    norm_num
  · simp [mainScan, scanBody_cons, scanBody_nil, scanStep, mainTakeNumber, parseDec,
      digitsVal, isStartChar, isHandled]
  · simp [tokenizerScan, tokenizerScanBody_cons, tokenizerScanBody_nil, tokenizerScanStep,
      tokenizerTakeNumber, parseDec, digitsVal, isStartChar, isHandled]
  · have h : ((123456 : ℚ) / 1000) = ⟨15432, 125, by decide, by decide⟩ := by
      rw [Rat.mk'_eq_divInt, Rat.divInt_eq_div]
      norm_num
    rw [Lexeme.render, h]
    rfl
  · rfl

/-- C2: a maximal alphanumeric/underscore run scans to a keyword token exactly
when it is an exact member of the fixed reserved-word set of the scanner the
binary runs (`src/main.rs`), which contains "print" and not "let"; so "let"
scans to an identifier, "print" to a keyword, and there is no case-folding
("PRINT" is an identifier). -/
theorem C2_keyword_classification :
    (∀ (c : Char) (cs : List Char), isStartChar c = true →
      (∀ x ∈ cs, isIdentChar x = true) →
      (mainScan (c :: cs)).toks =
        [if String.mk (c :: cs) ∈ mainKeywords then Lexeme.keyword (String.mk (c :: cs))
         else Lexeme.identifier (String.mk (c :: cs)), .eof] ∧
      (mainScan (c :: cs)).err = false) ∧
    ("print" ∈ mainKeywords ∧ "let" ∉ mainKeywords) ∧
    (mainScan "let".toList).toks = [.identifier "let", .eof] ∧
    (mainScan "print".toList).toks = [.keyword "print", .eof] ∧
    (mainScan "PRINT".toList).toks = [.identifier "PRINT", .eof] := by
  have hgen : ∀ (c : Char) (cs : List Char), isStartChar c = true →
      (∀ x ∈ cs, isIdentChar x = true) →
      (mainScan (c :: cs)).toks =
        [if String.mk (c :: cs) ∈ mainKeywords then Lexeme.keyword (String.mk (c :: cs))
         else Lexeme.identifier (String.mk (c :: cs)), .eof] ∧
      (mainScan (c :: cs)).err = false := by
    intro c cs h1 h2
    unfold mainScan
    rw [scanBody_ident c cs 1 h1 h2]
    simp
  refine ⟨hgen, ⟨by decide, by decide⟩, ?_, ?_, ?_⟩
  · have h := (hgen 'l' ['e', 't'] (by decide) (by decide)).1
    rw [show ("let".toList : List Char) = 'l' :: ['e', 't'] from rfl, h]
    decide
  · have h := (hgen 'p' ['r', 'i', 'n', 't'] (by decide) (by decide)).1
    rw [show ("print".toList : List Char) = 'p' :: ['r', 'i', 'n', 't'] from rfl, h]
    decide
  · have h := (hgen 'P' ['R', 'I', 'N', 'T'] (by decide) (by decide)).1
    rw [show ("PRINT".toList : List Char) = 'P' :: ['R', 'I', 'N', 'T'] from rfl, h]
    decide

/-- C3: the scan reports failure (the `Err` arm) exactly when an error-variant
token appears in the produced sequence, and hitting an unexpected character
never stops scanning — the error token is emitted in place and the rest of
the input is scanned as usual. -/
theorem C3_error_flag_iff_error_token :
    (∀ s : String,
      ((mainScan s.toList).err = true ↔
        ∃ t ∈ (mainScan s.toList).toks, isErrTok t = true)) ∧
    (∀ s : String,
      ((mainScan s.toList).err = true → tokenize s = .error (mainScan s.toList).toks) ∧
      ((mainScan s.toList).err = false → tokenize s = .ok (mainScan s.toList).toks)) ∧
    (∀ (c : Char) (cs : List Char) (line : Nat), isHandled c = false →
      scanBody (c :: cs) line =
        ⟨Lexeme.unexpectedCharError line c :: (scanBody cs line).toks, true,
          (scanBody cs line).line⟩) := by
  refine ⟨?_, ?_, ?_⟩
  · intro s
    unfold mainScan
    have h := scanBody_err_iff s.toList 1
    simp only [List.mem_append, List.mem_singleton]
    constructor
    · intro he
      obtain ⟨t, ht, hte⟩ := h.mp he
      exact ⟨t, Or.inl ht, hte⟩
    · rintro ⟨t, ht | rfl, hte⟩
      · exact h.mpr ⟨t, ht, hte⟩
      · exact absurd hte (by decide)
  · intro s
    constructor
    · intro he
      rw [show s.toList = s.data from rfl] at he
      simp [tokenize, he]
    · intro he
      rw [show s.toList = s.data from rfl] at he
      simp [tokenize, he]
  · intro c cs line hu
    rw [scanBody_cons, scanStep_unhandled cs line hu]
    simp

/-- Witness for C3 at the concrete input "#": the flag is set, an
unexpected-character token is in the stream, and scanning continued to the
end-of-input marker. -/
theorem C3_witness :
    ((mainScan "#".toList).err = true ↔
      ∃ t ∈ (mainScan "#".toList).toks, isErrTok t = true) ∧
    scanBody ('#' :: []) 1 =
      ⟨Lexeme.unexpectedCharError 1 '#' :: (scanBody [] 1).toks, true,
        (scanBody [] 1).line⟩ :=
  ⟨C3_error_flag_iff_error_token.1 "#",
    C3_error_flag_iff_error_token.2.2 '#' [] 1 (by decide)⟩

/-- C4: for every source text the token sequence is non-empty, ends with the
end-of-input marker, and contains that marker exactly once. -/
theorem C4_eof_invariant (s : String) :
    (mainScan s.toList).toks ≠ [] ∧
    (mainScan s.toList).toks.getLast? = some Lexeme.eof ∧
    (mainScan s.toList).toks.count Lexeme.eof = 1 := by
  unfold mainScan
  refine ⟨by simp, ?_, ?_⟩
  · rw [List.getLast?_concat]
  · rw [List.count_append]
    have h0 : (scanBody s.toList 1).toks.count Lexeme.eof = 0 :=
      List.count_eq_zero.mpr (scanBody_no_eof s.toList 1)
    rw [h0]
    rfl

/-- C5: an unterminated string literal yields exactly one unterminated-string
error token tagged with the line of the opening quote (1 plus the newlines
consumed before it), the fault flag is set, no string token is produced, and
newlines inside the open literal still advance the line counter. The prefix
`p` is quote-free (so the quote opens a literal) and slash-free (so no line
comment can swallow the quote). -/
theorem C5_unterminated_string (p t : List Char)
    (hp1 : '"' ∉ p) (hp2 : '/' ∉ p) (ht : '"' ∉ t) :
    (mainScan (p ++ '"' :: t)).err = true ∧
    (mainScan (p ++ '"' :: t)).toks.countP (fun tok => isUntermTok tok) = 1 ∧
    Lexeme.unterminatedStringError (1 + p.count '\n') ∈ (mainScan (p ++ '"' :: t)).toks ∧
    (∀ tok ∈ (mainScan (p ++ '"' :: t)).toks, isStringTok tok = false) ∧
    (mainScan (p ++ '"' :: t)).line = 1 + p.count '\n' + t.count '\n' := by
  have hd := scanBody_append p t 1 hp1 hp2
  have hpl := scanBody_line p 1
  have hquote := scanBody_quote_unterminated t ((scanBody p 1).line) ht
  have hclean := scanBody_clean p 1 hp1
  have hcount0 : (scanBody p 1).toks.countP (fun tok => isUntermTok tok) = 0 := by
    rw [List.countP_eq_zero]
    intro tok htok
    simp [(hclean tok htok).2]
  unfold mainScan
  rw [hd, hquote]
  refine ⟨by simp, ?_, ?_, ?_, ?_⟩
  · simp only [List.countP_append, hcount0]
    rfl
  · rw [hpl]
    simp
  · intro tok htok
    simp only [List.append_assoc, List.mem_append, List.mem_singleton] at htok
    rcases htok with htok | htok | rfl
    · exact (hclean tok htok).1
    · subst htok
      rfl
    · rfl
  · rw [hpl]

/-- Witness for C5: scanning "a\n\"b\nc" (identifier, newline, then an
unterminated string containing a newline). -/
theorem C5_witness :
    (mainScan (['a', '\n'] ++ '"' :: ['b', '\n', 'c'])).err = true ∧
    (mainScan (['a', '\n'] ++ '"' :: ['b', '\n', 'c'])).toks.countP
      (fun tok => isUntermTok tok) = 1 ∧
    Lexeme.unterminatedStringError (1 + (['a', '\n'] : List Char).count '\n') ∈
      (mainScan (['a', '\n'] ++ '"' :: ['b', '\n', 'c'])).toks ∧
    (∀ tok ∈ (mainScan (['a', '\n'] ++ '"' :: ['b', '\n', 'c'])).toks,
      isStringTok tok = false) ∧
    (mainScan (['a', '\n'] ++ '"' :: ['b', '\n', 'c'])).line =
      1 + (['a', '\n'] : List Char).count '\n' + (['b', '\n', 'c'] : List Char).count '\n' :=
  C5_unterminated_string ['a', '\n'] ['b', '\n', 'c'] (by decide) (by decide) (by decide)

/-- C8: scanning an input that is exactly one quoted string literal (no quote
inside) yields a string token whose stored contents are the text between the
quotes, verbatim, and rendering that token reproduces the text (no escape
processing). -/
theorem C8_string_roundtrip (t : List Char) (h : '"' ∉ t) :
    (mainScan ('"' :: (t ++ ['"']))).toks = [.string (String.mk t), .eof] ∧
    (mainScan ('"' :: (t ++ ['"']))).err = false ∧
    Lexeme.render (.string (String.mk t)) =
      "STRING \"" ++ String.mk t ++ "\" " ++ String.mk t := by
  unfold mainScan
  rw [scanBody_quote_terminated t 1 h]
  exact ⟨rfl, rfl, rfl⟩

/-- Witness for C8 at t = "h\ni". -/
theorem C8_witness :
    (mainScan ('"' :: (['h', '\n', 'i'] ++ ['"']))).toks =
      [.string (String.mk ['h', '\n', 'i']), .eof] ∧
    (mainScan ('"' :: (['h', '\n', 'i'] ++ ['"']))).err = false ∧
    Lexeme.render (.string (String.mk ['h', '\n', 'i'])) =
      "STRING \"" ++ String.mk ['h', '\n', 'i'] ++ "\" " ++ String.mk ['h', '\n', 'i'] :=
  C8_string_roundtrip ['h', '\n', 'i'] (by decide)

/-- Witness for C2 at the run "foo": classified by membership in the fixed
set (an identifier, since "foo" is not reserved). -/
theorem C2_witness :
    (mainScan ('f' :: ['o', 'o'])).toks =
      [if String.mk ('f' :: ['o', 'o']) ∈ mainKeywords then
        Lexeme.keyword (String.mk ('f' :: ['o', 'o']))
      else Lexeme.identifier (String.mk ('f' :: ['o', 'o'])), .eof] ∧
    (mainScan ('f' :: ['o', 'o'])).err = false :=
  C2_keyword_classification.1 'f' ['o', 'o'] (by decide) (by decide)

/-- Precondition of C10: a non-empty token slice whose last element is the
end-of-input marker (what the scanner always produces). -/
def Wf (tokens : List Lexeme) : Prop :=
  tokens ≠ [] ∧ tokens.getLast? = some Lexeme.eof

/-- Cursor invariant maintained by the parser: in bounds, and positive
whenever it rests on the end-of-input marker (so `previous` cannot
underflow). -/
def CInv (tokens : List Lexeme) (cur : Nat) : Prop :=
  cur < tokens.length ∧ (tokens.get? cur = some Lexeme.eof → 1 ≤ cur)

theorem Wf.get_last {tokens : List Lexeme} (hw : Wf tokens) :
    tokens.get? (tokens.length - 1) = some Lexeme.eof := by
  rcases hw with ⟨hne, hl⟩
  rwa [List.getLast?_eq_get?] at hl

theorem succ_lt_of_ne_eof {tokens : List Lexeme} {cur : Nat} (hw : Wf tokens)
    (h1 : cur < tokens.length) (h2 : tokens.get? cur ≠ some Lexeme.eof) :
    cur + 1 < tokens.length := by
  rcases Nat.lt_or_ge (cur + 1) tokens.length with h | h
  · exact h
  · exfalso
    have hc : cur = tokens.length - 1 := by omega
    exact h2 (hc ▸ hw.get_last)

theorem peek_isSome {tokens : List Lexeme} {cur : Nat} (h : cur < tokens.length) :
    ∃ l, peek tokens cur = some l := by
  unfold peek
  rw [List.get?_eq_get h]
  exact ⟨_, rfl⟩

theorem advance_of_ne_eof {tokens : List Lexeme} {cur : Nat} {l : Lexeme}
    (h1 : tokens.get? cur = some l) (h2 : l ≠ Lexeme.eof) :
    advance tokens cur = some (l, cur + 1) := by
  unfold advance
  rw [show peek tokens cur = some l from h1]
  simp only [if_neg h2]
  show (match previous tokens (cur + 1) with
    | none => none
    | some p => some (p, cur + 1)) = _
  have hp : previous tokens (cur + 1) = some l := h1
  rw [hp]

theorem advance_of_eof {tokens : List Lexeme} {cur : Nat}
    (h1 : tokens.get? cur = some Lexeme.eof) (h2 : 1 ≤ cur) (h3 : cur < tokens.length) :
    ∃ p, tokens.get? (cur - 1) = some p ∧ advance tokens cur = some (p, cur) := by
  have hlt : cur - 1 < tokens.length := by omega
  obtain ⟨p, hp⟩ : ∃ p, tokens.get? (cur - 1) = some p := by
    rw [List.get?_eq_get hlt]
    exact ⟨_, rfl⟩
  refine ⟨p, hp, ?_⟩
  unfold advance
  rw [show peek tokens cur = some Lexeme.eof from h1]
  simp only [if_pos rfl]
  show (match previous tokens cur with
    | none => none
    | some p => some (p, cur)) = _
  have hprev : previous tokens cur = some p := by
    rcases cur with _ | n
    · omega
    · show tokens.get? n = some p
      simpa using hp
  rw [hprev]

/-- Behaviour bundle for the expression-level parser routines: no panic, and
on success the cursor is monotone, stays invariant, and strictly advances
when the routine did not start on the end-of-input marker. -/
def POk (tokens : List Lexeme) (cur : Nat) (r : POut (String × Nat)) : Prop :=
  r ≠ .crash ∧ ∀ s cur', r = .res (.ok (s, cur')) →
    cur ≤ cur' ∧ CInv tokens cur' ∧
    (tokens.get? cur ≠ some Lexeme.eof → cur < cur')

/-- Behaviour bundle for the binary-operator fold loops (which may succeed
without consuming anything). -/
def PTk (tokens : List Lexeme) (cur : Nat) (r : POut (String × Nat)) : Prop :=
  r ≠ .crash ∧ ∀ s cur', r = .res (.ok (s, cur')) → cur ≤ cur' ∧ CInv tokens cur'

/-- Behaviour bundle for the grouped-expression loop. -/
def PGk (tokens : List Lexeme) (cur : Nat) (r : POut (List String × Nat)) : Prop :=
  r ≠ .crash ∧ ∀ es cur', r = .res (.ok (es, cur')) → cur ≤ cur' ∧ CInv tokens cur'

theorem parseLiteral_spec (tokens : List Lexeme) (cur : Nat) (hw : Wf tokens)
    (hInv : CInv tokens cur) : POk tokens cur (parseLiteral tokens cur) := by
  obtain ⟨hlt, heofpos⟩ := hInv
  obtain ⟨l, hl⟩ := peek_isSome hlt
  have hl' : tokens.get? cur = some l := hl
  by_cases heof : l = Lexeme.eof
  · subst heof
    obtain ⟨p, hp, hadv⟩ := advance_of_eof hl' (heofpos hl') hlt
    unfold parseLiteral
    rw [hadv]
    constructor
    · cases p <;> simp
    · intro s cur' hok
      cases p <;> simp at hok
      all_goals {
        obtain ⟨-, rfl⟩ := hok
        exact ⟨Nat.le_refl _, ⟨hlt, heofpos⟩, fun hne => absurd hl' hne⟩
      }
  · have hadv := advance_of_ne_eof hl' heof
    have hlt' := succ_lt_of_ne_eof hw hlt (hl' ▸ fun hc => heof (Option.some.injEq .. ▸ hc ▸ rfl))
    unfold parseLiteral
    rw [hadv]
    constructor
    · cases l <;> simp
    · intro s cur' hok
      cases l <;> simp at hok
      all_goals {
        obtain ⟨-, rfl⟩ := hok
        exact ⟨Nat.le_succ cur, ⟨hlt', fun _ => by omega⟩, fun _ => Nat.lt_succ_self cur⟩
      }

theorem consume_rp_spec (tokens : List Lexeme) (cur : Nat) (hw : Wf tokens)
    (hInv : CInv tokens cur) :
    consume tokens .rightParen cur ≠ none ∧
    (∀ tk c3, consume tokens .rightParen cur = some (.ok (tk, c3)) →
      c3 = cur + 1 ∧ CInv tokens c3) := by
  obtain ⟨hlt, hpos⟩ := hInv
  obtain ⟨l, hl⟩ := peek_isSome hlt
  have hl' : tokens.get? cur = some l := hl
  unfold consume
  rw [hl]
  dsimp only
  by_cases hrp : l = Lexeme.rightParen
  · subst hrp
    have hadv := advance_of_ne_eof hl' (by simp)
    have hlt' := succ_lt_of_ne_eof hw hlt (by rw [hl']; simp)
    rw [if_pos rfl, hadv]
    refine ⟨by simp, ?_⟩
    intro tk c3 hok
    simp only [Option.some.injEq, Except.ok.injEq, Prod.mk.injEq] at hok
    obtain ⟨-, h2⟩ := hok
    subst h2
    exact ⟨rfl, hlt', fun _ => by omega⟩
  · rw [if_neg hrp]
    by_cases heof : l = Lexeme.eof
    · rw [if_pos heof]
      exact ⟨by simp, fun tk c3 hok => by simp at hok⟩
    · rw [if_neg heof]
      exact ⟨by simp, fun tk c3 hok => by simp at hok⟩

set_option maxHeartbeats 1600000 in
/-- Simultaneous induction on fuel over all parser routines: none can panic
from a cursor satisfying `CInv` over a well-formed token slice, and on success
the cursor moves monotonically (strictly for the expression-level routines
when not already at the end-of-input marker) and keeps the invariant. -/
theorem parser_bundle (tokens : List Lexeme) (hw : Wf tokens) : ∀ fuel : Nat,
    (∀ cur, CInv tokens cur → POk tokens cur (parseExpression tokens fuel cur)) ∧
    (∀ cur, CInv tokens cur → POk tokens cur (parseEquality tokens fuel cur)) ∧
    (∀ e cur, CInv tokens cur → PTk tokens cur (equalityTail tokens fuel e cur)) ∧
    (∀ cur, CInv tokens cur → POk tokens cur (parseComparison tokens fuel cur)) ∧
    (∀ e cur, CInv tokens cur → PTk tokens cur (comparisonTail tokens fuel e cur)) ∧
    (∀ cur, CInv tokens cur → POk tokens cur (parseTerm tokens fuel cur)) ∧
    (∀ e cur, CInv tokens cur → PTk tokens cur (termTail tokens fuel e cur)) ∧
    (∀ cur, CInv tokens cur → POk tokens cur (parseFactor tokens fuel cur)) ∧
    (∀ e cur, CInv tokens cur → PTk tokens cur (factorTail tokens fuel e cur)) ∧
    (∀ cur, CInv tokens cur → POk tokens cur (parseUnary tokens fuel cur)) ∧
    (∀ cur, CInv tokens cur → POk tokens cur (parseGrouping tokens fuel cur)) ∧
    (∀ acc cur, CInv tokens cur → PGk tokens cur (groupedExpressions tokens fuel acc cur)) ∧
    (∀ acc cur, cur < tokens.length → parseLoop tokens fuel acc cur ≠ .crash) := by
  intro fuel
  induction fuel with
  | zero =>
    have hP : ∀ cur, POk tokens cur .fuelOut :=
      fun cur => ⟨fun h => POut.noConfusion h, fun s cur' h => POut.noConfusion h⟩
    have hT : ∀ cur, PTk tokens cur .fuelOut :=
      fun cur => ⟨fun h => POut.noConfusion h, fun s cur' h => POut.noConfusion h⟩
    have hG : ∀ cur, PGk tokens cur .fuelOut :=
      fun cur => ⟨fun h => POut.noConfusion h, fun es cur' h => POut.noConfusion h⟩
    refine ⟨?_, ?_, ?_, ?_, ?_, ?_, ?_, ?_, ?_, ?_, ?_, ?_, ?_⟩
    · intro cur _; rw [parseExpression]; exact hP cur
    · intro cur _; rw [parseEquality]; exact hP cur
    · intro e cur _; rw [equalityTail]; exact hT cur
    · intro cur _; rw [parseComparison]; exact hP cur
    · intro e cur _; rw [comparisonTail]; exact hT cur
    · intro cur _; rw [parseTerm]; exact hP cur
    · intro e cur _; rw [termTail]; exact hT cur
    · intro cur _; rw [parseFactor]; exact hP cur
    · intro e cur _; rw [factorTail]; exact hT cur
    · intro cur _; rw [parseUnary]; exact hP cur
    · intro cur _; rw [parseGrouping]; exact hP cur
    · intro acc cur _; rw [groupedExpressions]; exact hG cur
    · intro acc cur _; rw [parseLoop]; exact fun h => POut.noConfusion h
  | succ fuel ih =>
    obtain ⟨ihExpr, ihEq, ihEqT, ihCmp, ihCmpT, ihTerm, ihTermT, ihFac, ihFacT,
      ihUn, ihGr, ihGE, ihLoop⟩ := ih
    have hbinNext : ∀ (next : Nat → Nat → POut (String × Nat))
        (tail : Nat → String → Nat → POut (String × Nat)),
        (∀ cur, CInv tokens cur → POk tokens cur (next fuel cur)) →
        (∀ e cur, CInv tokens cur → PTk tokens cur (tail fuel e cur)) →
        ∀ cur, CInv tokens cur → POk tokens cur
          (match next fuel cur with
            | .res (.ok (e, cur')) => tail fuel e cur'
            | r => r) := by
      intro next tail hnext htail cur hInv
      have hc := hnext cur hInv
      split
      · rename_i e c' heq
        obtain ⟨hle, hInv', hstrict⟩ := hc.2 e c' heq
        have ht := htail e c' hInv'
        refine ⟨ht.1, ?_⟩
        intro s cur'' hok
        obtain ⟨hle2, hInv''⟩ := ht.2 s cur'' hok
        exact ⟨Nat.le_trans hle hle2, hInv'',
          fun hne => Nat.lt_of_lt_of_le (hstrict hne) hle2⟩
      · exact hc
    have hEq : ∀ cur, CInv tokens cur → POk tokens cur (parseEquality tokens (fuel + 1) cur) := by
      intro cur hInv
      rw [parseEquality]
      exact hbinNext (parseComparison tokens) (equalityTail tokens) ihCmp ihEqT cur hInv
    have hEqT : ∀ e cur, CInv tokens cur →
        PTk tokens cur (equalityTail tokens (fuel + 1) e cur) := by
      intro e cur hInv
      obtain ⟨hlt, hpos⟩ := hInv
      obtain ⟨l, hl⟩ := peek_isSome hlt
      rw [equalityTail, hl]
      dsimp only
      by_cases hop : l = Lexeme.equalEqual ∨ l = Lexeme.bangEqual
      · rw [if_pos hop]
        have hne : l ≠ Lexeme.eof := by rcases hop with rfl | rfl <;> simp
        have hadv := advance_of_ne_eof hl hne
        rw [hadv]
        dsimp only
        have hlt' := succ_lt_of_ne_eof hw hlt
          (fun hc => hne (Option.some.inj ((hl : tokens.get? cur = some l) ▸ hc)))
        have hInv' : CInv tokens (cur + 1) := ⟨hlt', fun _ => by omega⟩
        have hc := ihCmp (cur + 1) hInv'
        split
        · rename_i right c'' heq
          obtain ⟨hle2, hInv'', -⟩ := hc.2 right c'' heq
          have htail : ∀ e2, PTk tokens cur
              (equalityTail tokens fuel e2 c'') := by
            intro e2
            have ht := ihEqT e2 c'' hInv''
            exact ⟨ht.1, fun s cur3 hok =>
              let ⟨hle3, hI⟩ := ht.2 s cur3 hok
              ⟨by omega, hI⟩⟩
          rcases hop with rfl | rfl
          · rw [if_pos rfl]
            exact htail _
          · rw [if_neg (by decide), if_pos rfl]
            exact htail _
        · rename_i x harm
          exact ⟨hc.1, fun s cur3 hok => (harm s cur3 hok).elim⟩
      · rw [if_neg hop]
        refine ⟨by simp, ?_⟩
        intro s cur' hok
        simp only [POut.res.injEq, Except.ok.injEq, Prod.mk.injEq] at hok
        obtain ⟨-, rfl⟩ := hok
        exact ⟨Nat.le_refl _, ⟨hlt, hpos⟩⟩
    have hCmpT : ∀ e cur, CInv tokens cur →
        PTk tokens cur (comparisonTail tokens (fuel + 1) e cur) := by
      intro e cur hInv
      obtain ⟨hlt, hpos⟩ := hInv
      obtain ⟨l, hl⟩ := peek_isSome hlt
      rw [comparisonTail, hl]
      dsimp only
      by_cases hop : l = Lexeme.greater ∨ l = Lexeme.less ∨
          l = Lexeme.greaterEqual ∨ l = Lexeme.lessEqual
      · rw [if_pos hop]
        have hne : l ≠ Lexeme.eof := by rcases hop with rfl | rfl | rfl | rfl <;> simp
        have hadv := advance_of_ne_eof hl hne
        rw [hadv]
        dsimp only
        have hlt' := succ_lt_of_ne_eof hw hlt
          (fun hc => hne (Option.some.inj ((hl : tokens.get? cur = some l) ▸ hc)))
        have hInv' : CInv tokens (cur + 1) := ⟨hlt', fun _ => by omega⟩
        have hc := ihTerm (cur + 1) hInv'
        split
        · rename_i right c'' heq
          obtain ⟨hle2, hInv'', -⟩ := hc.2 right c'' heq
          have htail : ∀ e2, PTk tokens cur (comparisonTail tokens fuel e2 c'') := by
            intro e2
            have ht := ihCmpT e2 c'' hInv''
            exact ⟨ht.1, fun s cur3 hok =>
              let ⟨hle3, hI⟩ := ht.2 s cur3 hok
              ⟨by omega, hI⟩⟩
          rcases hop with rfl | rfl | rfl | rfl
          · rw [if_pos rfl]
            exact htail _
          · rw [if_neg (by decide), if_pos rfl]
            exact htail _
          · rw [if_neg (by decide), if_neg (by decide), if_pos rfl]
            exact htail _
          · rw [if_neg (by decide), if_neg (by decide), if_neg (by decide), if_pos rfl]
            exact htail _
        · rename_i x harm
          exact ⟨hc.1, fun s cur3 hok => (harm s cur3 hok).elim⟩
      · rw [if_neg hop]
        refine ⟨by simp, ?_⟩
        intro s cur' hok
        simp only [POut.res.injEq, Except.ok.injEq, Prod.mk.injEq] at hok
        obtain ⟨-, rfl⟩ := hok
        exact ⟨Nat.le_refl _, ⟨hlt, hpos⟩⟩
    have hTermT : ∀ e cur, CInv tokens cur →
        PTk tokens cur (termTail tokens (fuel + 1) e cur) := by
      intro e cur hInv
      obtain ⟨hlt, hpos⟩ := hInv
      obtain ⟨l, hl⟩ := peek_isSome hlt
      rw [termTail, hl]
      dsimp only
      by_cases hop : l = Lexeme.operator MathOp.plus ∨ l = Lexeme.operator MathOp.minus
      · rw [if_pos hop]
        have hne : l ≠ Lexeme.eof := by rcases hop with rfl | rfl <;> simp
        have hadv := advance_of_ne_eof hl hne
        rw [hadv]
        dsimp only
        have hlt' := succ_lt_of_ne_eof hw hlt
          (fun hc => hne (Option.some.inj ((hl : tokens.get? cur = some l) ▸ hc)))
        have hInv' : CInv tokens (cur + 1) := ⟨hlt', fun _ => by omega⟩
        have hc := ihFac (cur + 1) hInv'
        split
        · rename_i right c'' heq
          obtain ⟨hle2, hInv'', -⟩ := hc.2 right c'' heq
          have htail : ∀ e2, PTk tokens cur (termTail tokens fuel e2 c'') := by
            intro e2
            have ht := ihTermT e2 c'' hInv''
            exact ⟨ht.1, fun s cur3 hok =>
              let ⟨hle3, hI⟩ := ht.2 s cur3 hok
              ⟨by omega, hI⟩⟩
          rcases hop with rfl | rfl
          · rw [if_pos rfl]
            exact htail _
          · rw [if_neg (by decide), if_pos rfl]
            exact htail _
        · rename_i x harm
          exact ⟨hc.1, fun s cur3 hok => (harm s cur3 hok).elim⟩
      · rw [if_neg hop]
        refine ⟨by simp, ?_⟩
        intro s cur' hok
        simp only [POut.res.injEq, Except.ok.injEq, Prod.mk.injEq] at hok
        obtain ⟨-, rfl⟩ := hok
        exact ⟨Nat.le_refl _, ⟨hlt, hpos⟩⟩
    have hFacT : ∀ e cur, CInv tokens cur →
        PTk tokens cur (factorTail tokens (fuel + 1) e cur) := by
      intro e cur hInv
      obtain ⟨hlt, hpos⟩ := hInv
      obtain ⟨l, hl⟩ := peek_isSome hlt
      rw [factorTail, hl]
      dsimp only
      by_cases hop : l = Lexeme.operator MathOp.star ∨ l = Lexeme.operator MathOp.slash
      · rw [if_pos hop]
        have hne : l ≠ Lexeme.eof := by rcases hop with rfl | rfl <;> simp
        have hadv := advance_of_ne_eof hl hne
        rw [hadv]
        dsimp only
        have hlt' := succ_lt_of_ne_eof hw hlt
          (fun hc => hne (Option.some.inj ((hl : tokens.get? cur = some l) ▸ hc)))
        have hInv' : CInv tokens (cur + 1) := ⟨hlt', fun _ => by omega⟩
        have hc := ihUn (cur + 1) hInv'
        split
        · rename_i right c'' heq
          obtain ⟨hle2, hInv'', -⟩ := hc.2 right c'' heq
          have htail : ∀ e2, PTk tokens cur (factorTail tokens fuel e2 c'') := by
            intro e2
            have ht := ihFacT e2 c'' hInv''
            exact ⟨ht.1, fun s cur3 hok =>
              let ⟨hle3, hI⟩ := ht.2 s cur3 hok
              ⟨by omega, hI⟩⟩
          rcases hop with rfl | rfl
          · rw [if_pos rfl]
            exact htail _
          · rw [if_neg (by decide), if_pos rfl]
            exact htail _
        · rename_i x harm
          exact ⟨hc.1, fun s cur3 hok => (harm s cur3 hok).elim⟩
      · rw [if_neg hop]
        refine ⟨by simp, ?_⟩
        intro s cur' hok
        simp only [POut.res.injEq, Except.ok.injEq, Prod.mk.injEq] at hok
        obtain ⟨-, rfl⟩ := hok
        exact ⟨Nat.le_refl _, ⟨hlt, hpos⟩⟩
    have hGE : ∀ acc cur, CInv tokens cur →
        PGk tokens cur (groupedExpressions tokens (fuel + 1) acc cur) := by
      intro acc cur hInv
      obtain ⟨hlt, hpos⟩ := hInv
      obtain ⟨l, hl⟩ := peek_isSome hlt
      rw [groupedExpressions, hl]
      dsimp only
      by_cases hrp : l = Lexeme.rightParen
      · rw [if_pos hrp]
        refine ⟨by simp, ?_⟩
        intro es cur' hok
        simp only [POut.res.injEq, Except.ok.injEq, Prod.mk.injEq] at hok
        obtain ⟨-, rfl⟩ := hok
        exact ⟨Nat.le_refl _, ⟨hlt, hpos⟩⟩
      · rw [if_neg hrp]
        by_cases heof : l = Lexeme.eof
        · rw [if_pos heof]
          exact ⟨by simp, fun es c h => by simp at h⟩
        · rw [if_neg heof]
          have he := ihExpr cur ⟨hlt, hpos⟩
          split
          · rename_i e c1 heq
            obtain ⟨hle1, hInv1, -⟩ := he.2 e c1 heq
            obtain ⟨l2, hl2⟩ := peek_isSome hInv1.1
            rw [hl2]
            dsimp only
            by_cases hcm : l2 = Lexeme.comma
            · rw [if_pos hcm]
              have hne2 : l2 ≠ Lexeme.eof := by rw [hcm]; simp
              have hadv := advance_of_ne_eof hl2 hne2
              rw [hadv]
              dsimp only
              have hlt2 := succ_lt_of_ne_eof hw hInv1.1
                (fun hc => hne2 (Option.some.inj ((hl2 : tokens.get? c1 = some l2) ▸ hc)))
              have hge := ihGE (acc ++ [e]) (c1 + 1) ⟨hlt2, fun _ => by omega⟩
              exact ⟨hge.1, fun es c' hok =>
                let ⟨hleg, hIg⟩ := hge.2 es c' hok
                ⟨by omega, hIg⟩⟩
            · rw [if_neg hcm]
              refine ⟨by simp, ?_⟩
              intro es c' hok
              simp only [POut.res.injEq, Except.ok.injEq, Prod.mk.injEq] at hok
              obtain ⟨-, rfl⟩ := hok
              exact ⟨by omega, hInv1⟩
          · rename_i err heq
            exact ⟨by simp, fun es c h => by simp at h⟩
          · rename_i heq
            exact absurd heq he.1
          · rename_i heq
            exact ⟨by simp, fun es c h => by simp at h⟩
    have hUn : ∀ cur, CInv tokens cur →
        POk tokens cur (parseUnary tokens (fuel + 1) cur) := by
      intro cur hInv
      obtain ⟨hlt, hpos⟩ := hInv
      obtain ⟨l, hl⟩ := peek_isSome hlt
      rw [parseUnary, hl]
      dsimp only
      by_cases hop : l = Lexeme.bang ∨ l = Lexeme.operator MathOp.minus
      · rw [if_pos hop]
        have hne : l ≠ Lexeme.eof := by rcases hop with rfl | rfl <;> simp
        have hadv := advance_of_ne_eof hl hne
        rw [hadv]
        dsimp only
        have hlt' := succ_lt_of_ne_eof hw hlt
          (fun hc => hne (Option.some.inj ((hl : tokens.get? cur = some l) ▸ hc)))
        have hInv' : CInv tokens (cur + 1) := ⟨hlt', fun _ => by omega⟩
        have hc := ihUn (cur + 1) hInv'
        split
        · rename_i right c'' heq
          obtain ⟨hle2, hInv'', -⟩ := hc.2 right c'' heq
          have hres : ∀ str, POk tokens cur (POut.res (Except.ok (str, c''))) := by
            intro str
            refine ⟨by simp, ?_⟩
            intro s cur3 hok
            simp only [POut.res.injEq, Except.ok.injEq, Prod.mk.injEq] at hok
            obtain ⟨-, rfl⟩ := hok
            exact ⟨by omega, hInv'', fun _ => by omega⟩
          rcases hop with rfl | rfl
          · rw [if_pos rfl]
            exact hres _
          · rw [if_neg (by decide), if_pos rfl]
            exact hres _
        · rename_i x harm
          exact ⟨hc.1, fun s cur3 hok => (harm s cur3 hok).elim⟩
      · rw [if_neg hop]
        by_cases hlp : l = Lexeme.leftParen
        · rw [if_pos hlp]
          exact ihGr cur ⟨hlt, hpos⟩
        · rw [if_neg hlp]
          exact parseLiteral_spec tokens cur hw ⟨hlt, hpos⟩
    have hGr : ∀ cur, CInv tokens cur →
        POk tokens cur (parseGrouping tokens (fuel + 1) cur) := by
      intro cur hInv
      obtain ⟨hlt, hpos⟩ := hInv
      obtain ⟨l, hl⟩ := peek_isSome hlt
      have hrest : ∀ cur1, cur ≤ cur1 → CInv tokens cur1 →
          POk tokens cur (match groupedExpressions tokens fuel [] cur1 with
            | .res (.ok (exprs, cur2)) =>
              if exprs.isEmpty then .res (.error .emptyGrouping)
              else
                match consume tokens .rightParen cur2 with
                | none => .crash
                | some (.ok (_, cur3)) =>
                    .res (.ok ("(group " ++ String.intercalate ", " exprs ++ ")", cur3))
                | some (.error e) => .res (.error e)
            | .res (.error e) => .res (.error e)
            | .crash => .crash
            | .fuelOut => .fuelOut) := by
        intro cur1 hle1 hInv1
        have hge := ihGE [] cur1 hInv1
        split
        · rename_i exprs c2 heq
          obtain ⟨hle2, hInv2⟩ := hge.2 exprs c2 heq
          by_cases hemp : exprs.isEmpty
          · rw [if_pos hemp]
            exact ⟨by simp, fun s c h => by simp at h⟩
          · rw [if_neg hemp]
            have hcs := consume_rp_spec tokens c2 hw hInv2
            split
            · rename_i heq2
              exact absurd heq2 hcs.1
            · rename_i tk c3 heq2
              obtain ⟨hc3, hInv3⟩ := hcs.2 tk c3 heq2
              refine ⟨by simp, ?_⟩
              intro s cur4 hok
              simp only [POut.res.injEq, Except.ok.injEq, Prod.mk.injEq] at hok
              obtain ⟨-, rfl⟩ := hok
              exact ⟨by omega, hInv3, fun _ => by omega⟩
            · rename_i e2 heq2
              exact ⟨by simp, fun s c h => by simp at h⟩
        · rename_i e2 heq
          exact ⟨by simp, fun s c h => by simp at h⟩
        · rename_i heq
          exact absurd heq hge.1
        · rename_i heq
          exact ⟨by simp, fun s c h => by simp at h⟩
      rw [parseGrouping]
      by_cases heof : l = Lexeme.eof
      · have hl' : tokens.get? cur = some Lexeme.eof := heof ▸ hl
        obtain ⟨p, hp, hadv⟩ := advance_of_eof hl' (hpos hl') hlt
        rw [hadv]
        dsimp only
        exact hrest cur (Nat.le_refl _) ⟨hlt, hpos⟩
      · have hadv := advance_of_ne_eof hl heof
        rw [hadv]
        dsimp only
        have hlt' := succ_lt_of_ne_eof hw hlt
          (fun hc => heof (Option.some.inj ((hl : tokens.get? cur = some l) ▸ hc)))
        exact hrest (cur + 1) (Nat.le_succ _) ⟨hlt', fun _ => by omega⟩
    have hLoop : ∀ acc cur, cur < tokens.length →
        parseLoop tokens (fuel + 1) acc cur ≠ .crash := by
      intro acc cur hlt
      obtain ⟨l, hl⟩ := peek_isSome hlt
      rw [parseLoop, hl]
      dsimp only
      by_cases heof : l = Lexeme.eof
      · rw [if_pos heof]
        simp
      · rw [if_neg heof]
        have he := ihExpr cur ⟨hlt,
          fun hc => (heof (Option.some.inj
            ((hl : tokens.get? cur = some l).symm.trans hc))).elim⟩
        split
        · rename_i e c1 heq
          obtain ⟨-, hInv1, -⟩ := he.2 e c1 heq
          exact ihLoop _ c1 hInv1.1
        · rename_i err heq
          simp
        · rename_i heq
          exact absurd heq he.1
        · rename_i heq
          simp
    refine ⟨?_, hEq, hEqT, ?_, hCmpT, ?_, hTermT, ?_, hFacT, hUn, hGr, hGE, hLoop⟩
    · intro cur hInv
      rw [parseExpression]
      exact ihEq cur hInv
    · intro cur hInv
      rw [parseComparison]
      exact hbinNext (parseTerm tokens) (comparisonTail tokens) ihTerm ihCmpT cur hInv
    · intro cur hInv
      rw [parseTerm]
      exact hbinNext (parseFactor tokens) (termTail tokens) ihFac ihTermT cur hInv
    · intro cur hInv
      rw [parseFactor]
      exact hbinNext (parseUnary tokens) (factorTail tokens) ihUn ihFacT cur hInv

/-- C10: on any non-empty token slice ending in the end-of-input marker —
what the scanner always hands over — every cursor access of the parser stays
in bounds: `parse` never reaches the panic outcome (out-of-bounds `peek` /
`previous`, usize underflow, or `unreachable!`). -/
theorem C10_parse_no_panic (tokens : List Lexeme) (h1 : tokens ≠ [])
    (h2 : tokens.getLast? = some Lexeme.eof) : parse tokens ≠ POut.crash := by
  have hlen : 0 < tokens.length := List.length_pos.mpr h1
  unfold parse
  exact (parser_bundle tokens ⟨h1, h2⟩
    (8 * tokens.length + 8)).2.2.2.2.2.2.2.2.2.2.2.2 "" 0 hlen

/-- Witness for C10 on the token slice of "1". -/
theorem C10_witness : parse [Lexeme.number "1" 1, Lexeme.eof] ≠ POut.crash :=
  C10_parse_no_panic [Lexeme.number "1" 1, Lexeme.eof] (by decide) (by decide)

/-- C9: both components always terminate because each loop iteration makes
strict progress — one main-loop iteration of the scanner consumes at least
one character, and one successful expression parse (the body of the parser's
loops, entered only off the end-of-input marker) advances the cursor by at
least one position. -/
theorem C9_termination_progress :
    (∀ (c : Char) (cs : List Char) (line : Nat),
      (scanStep c cs line).rest.length < (c :: cs).length) ∧
    (∀ (tokens : List Lexeme) (fuel cur : Nat) (s : String) (cur' : Nat),
      Wf tokens → cur < tokens.length → tokens.get? cur ≠ some Lexeme.eof →
      parseExpression tokens fuel cur = .res (.ok (s, cur')) → cur < cur') := by
  constructor
  · intro c cs line
    simpa using Nat.lt_succ_of_le (scanStep_rest_le c cs line)
  · intro tokens fuel cur s cur' hw hlt hne hok
    have h := (parser_bundle tokens hw fuel).1 cur ⟨hlt, fun hc => absurd hc hne⟩
    exact (h.2 s cur' hok).2.2 hne

/-- Witness for C9: one scanner iteration on "x" consumes the character, and
parsing the expression of the token slice of "1" advances the cursor from 0
to 1. -/
theorem C9_witness :
    (scanStep 'x' [] 1).rest.length < ([('x' : Char)]).length ∧ (0 : Nat) < 1 := by
  constructor
  · exact C9_termination_progress.1 'x' [] 1
  · refine C9_termination_progress.2 [Lexeme.number "1" 1, Lexeme.eof] 20 0 "1.0" 1
      ⟨by decide, by decide⟩ (by decide) (by decide) ?_
    simp [parseExpression, parseEquality, equalityTail, parseComparison, comparisonTail,
      parseTerm, termTail, parseFactor, factorTail, parseUnary, parseLiteral,
      peek, previous, advance, show renderNumberValue 1 = "1.0" from rfl]

/-- C6: "(1 + 2) * 3" parses to exactly "(* (group (+ 1.0 2.0)) 3.0)" and
"1 == 2 != 3" (left-associative equality fold) to exactly
"(!= (== 1.0 2.0) 3.0)"; the top-level `parse` returns the rendering followed
by its per-expression newline separator. -/
theorem C6_parse_renderings :
    parse (mainScan "(1 + 2) * 3".toList).toks =
      .res (.ok "(* (group (+ 1.0 2.0)) 3.0)\n") ∧
    parseExpression (mainScan "(1 + 2) * 3".toList).toks 72 0 =
      .res (.ok ("(* (group (+ 1.0 2.0)) 3.0)", 7)) ∧
    parse (mainScan "1 == 2 != 3".toList).toks =
      .res (.ok "(!= (== 1.0 2.0) 3.0)\n") ∧
    parseExpression (mainScan "1 == 2 != 3".toList).toks 72 0 =
      .res (.ok ("(!= (== 1.0 2.0) 3.0)", 5)) := by
  have hscan1 : (mainScan "(1 + 2) * 3".toList).toks =
      [.leftParen, .number "1" 1, .operator .plus, .number "2" 2, .rightParen,
       .operator .star, .number "3" 3, .eof] := by
    simp [mainScan, scanBody_cons, scanBody_nil, scanStep, mainTakeNumber, parseDec,
      digitsVal, isStartChar, isHandled]
  have hscan2 : (mainScan "1 == 2 != 3".toList).toks =
      [.number "1" 1, .equalEqual, .number "2" 2, .bangEqual, .number "3" 3, .eof] := by
    simp [mainScan, scanBody_cons, scanBody_nil, scanStep, mainTakeNumber, parseDec,
      digitsVal, isStartChar, isHandled]
  rw [hscan1, hscan2]
  refine ⟨?_, ?_, ?_, ?_⟩ <;>
    · simp [parse, parseLoop, parseExpression, parseEquality, equalityTail,
        parseComparison, comparisonTail, parseTerm, termTail, parseFactor, factorTail,
        parseUnary, parseGrouping, groupedExpressions, parseLiteral, peek, previous,
        advance, consume, show renderNumberValue 1 = "1.0" from rfl,
        show renderNumberValue 2 = "2.0" from rfl, show renderNumberValue 3 = "3.0" from rfl]
      try rfl

/-- C7: "(1" fails with the unmatched-parentheses error (not the generic
unexpected-token error), "()" fails with the empty-grouping error; in both
cases `parse` returns the typed error and no rendered output. -/
theorem C7_parse_error_cases :
    parse (mainScan "(1".toList).toks = .res (.error .unmatchedParentheses) ∧
    parse (mainScan "()".toList).toks = .res (.error .emptyGrouping) := by
  have hscan1 : (mainScan "(1".toList).toks = [.leftParen, .number "1" 1, .eof] := by
    simp [mainScan, scanBody_cons, scanBody_nil, scanStep, mainTakeNumber, parseDec,
      digitsVal, isStartChar, isHandled]
  have hscan2 : (mainScan "()".toList).toks = [.leftParen, .rightParen, .eof] := by
    simp [mainScan, scanBody_cons, scanBody_nil, scanStep, mainTakeNumber, parseDec,
      digitsVal, isStartChar, isHandled]
  rw [hscan1, hscan2]
  refine ⟨?_, ?_⟩ <;>
    simp [parse, parseLoop, parseExpression, parseEquality, equalityTail,
      parseComparison, comparisonTail, parseTerm, termTail, parseFactor, factorTail,
      parseUnary, parseGrouping, groupedExpressions, parseLiteral, peek, previous,
      advance, consume, show renderNumberValue 1 = "1.0" from rfl]
